import Mathlib

/-!
Shallow embedding of the scrape-and-normalize pipeline of uk_polling_api
(src/uk_polling_api/scraper.py) together with proofs about it.

Modelling conventions:
* Python `float` values arising here are produced only by parsing decimal
  numerals, so they are modelled exactly as scaled decimals:
  a `PyFloat` with numerator `num` and scale `pow` denotes `num / 10 ^ pow`.
* Python `datetime.date` is modelled by `PyDate`; `date(y, m, d)` raising
  `ValueError` is modelled by `pyDateMk` returning `none`.
* Fallible Python code (the bare `int(...)` conversions in
  `_expand_rowspans`) is modelled in the `Except Unit` monad, `.error ()`
  standing for an uncaught exception.
* `date.today().year` is passed in explicitly as a `todayYear` argument.
* HTML is abstracted to the structure the scraper consumes: a page is a
  list of tables, a table a list of rows of cells, a cell its
  `rowspan`/`colspan` attribute strings and its stripped visible text.
-/

/-! ### Exact decimal model of the Python floats used by the scraper -/

/-- Exact decimal number: denotes `num / 10 ^ pow`.  All floats handled by
the scraper are parsed from decimal numerals, so this model is exact. -/
structure PyFloat where
  num : Int
  pow : Nat
deriving DecidableEq

/-- Value-level strict order on `PyFloat` (cross-multiplied). -/
def pfLt (a b : PyFloat) : Prop :=
  a.num * (10 : Int) ^ b.pow < b.num * (10 : Int) ^ a.pow

/-- Value-level order on `PyFloat` (cross-multiplied). -/
def pfLe (a b : PyFloat) : Prop :=
  a.num * (10 : Int) ^ b.pow ≤ b.num * (10 : Int) ^ a.pow

instance (a b : PyFloat) : Decidable (pfLt a b) := by unfold pfLt; infer_instance

instance (a b : PyFloat) : Decidable (pfLe a b) := by unfold pfLe; infer_instance

/-- Exact subtraction of decimals. -/
def pfSub (a b : PyFloat) : PyFloat :=
  { num := a.num * (10 : Int) ^ b.pow - b.num * (10 : Int) ^ a.pow
    pow := a.pow + b.pow }

/-- The rational value denoted by a `PyFloat`. -/
def pfVal (a : PyFloat) : ℚ := (a.num : ℚ) / (10 : ℚ) ^ a.pow

/-- Python `round(x, 1)` on an exact decimal: round `10 * x` to the nearest
integer, halves to even, and divide by ten again. -/
def pyRound1 (x : PyFloat) : PyFloat :=
  let q : Int := x.num * 10
  let d : Int := (10 : Int) ^ x.pow
  let f : Int := Int.fdiv q d
  let r : Int := q - f * d
  let n : Int :=
    if 2 * r < d then f
    else if d < 2 * r then f + 1
    else if f % 2 = 0 then f else f + 1
  { num := n, pow := 1 }

/-! ### Python dates -/

/-- Calendar date as Python's `datetime.date` holds it. -/
structure PyDate where
  year : Nat
  month : Nat
  day : Nat
deriving DecidableEq

/-- Gregorian leap-year test, as `datetime` implements it. -/
def isLeapYear (y : Nat) : Bool := y % 4 = 0 && (y % 100 ≠ 0 || y % 400 = 0)

/-- Number of days of month `m` in year `y`. -/
def daysInMonth (y m : Nat) : Nat :=
  if m = 2 then (if isLeapYear y then 29 else 28)
  else if m = 4 ∨ m = 6 ∨ m = 9 ∨ m = 11 then 30
  else 31

/-- Model of the `datetime.date` constructor: `none` when Python would
raise `ValueError`. -/
def pyDateMk (y m d : Nat) : Option PyDate :=
  if 1 ≤ y ∧ y ≤ 9999 ∧ 1 ≤ m ∧ m ≤ 12 ∧ 1 ≤ d ∧ d ≤ daysInMonth y m then
    some ⟨y, m, d⟩
  else none

/-- Model of `datetime.date.min`, i.e. 0001-01-01. -/
def dateMin : PyDate := ⟨1, 1, 1⟩

/-- Python's ordering on dates (lexicographic on year, month, day). -/
def dateLe (a b : PyDate) : Prop :=
  a.year < b.year ∨
    (a.year = b.year ∧ (a.month < b.month ∨ (a.month = b.month ∧ a.day ≤ b.day)))

/-- Strict version of `dateLe`. -/
def dateLt (a b : PyDate) : Prop :=
  a.year < b.year ∨
    (a.year = b.year ∧ (a.month < b.month ∨ (a.month = b.month ∧ a.day < b.day)))

instance (a b : PyDate) : Decidable (dateLe a b) := by unfold dateLe; infer_instance

instance (a b : PyDate) : Decidable (dateLt a b) := by unfold dateLt; infer_instance

/-! ### Python string helpers -/

/-- The whitespace characters recognised by `str.strip()` (ASCII range). -/
def isPyWs (c : Char) : Bool :=
  c = ' ' || c = '\t' || c = '\n' || c = '\x0d' || c = '\x0b' || c = '\x0c'

/-- Model of `str.strip()` on a character list. -/
def pyStripList (cs : List Char) : List Char :=
  ((cs.dropWhile isPyWs).reverse.dropWhile isPyWs).reverse

/-- Model of `str.strip()`. -/
def pyStrip (s : String) : String := ⟨pyStripList s.toList⟩

/-- ASCII lower-casing of one character (`str.lower()` on the data the
scraper sees). -/
def lowerChar (c : Char) : Char :=
  if 'A' ≤ c ∧ c ≤ 'Z' then Char.ofNat (c.toNat + 32) else c

/-- Model of `str.lower()`. -/
def lowerStr (s : String) : String := ⟨s.toList.map lowerChar⟩

/-- Scan for `n` as a contiguous sublist at every suffix. -/
def containsSubAux (n : List Char) : List Char → Bool
  | [] => n.isEmpty
  | c :: rest => n.isPrefixOf (c :: rest) || containsSubAux n rest

/-- Substring test, i.e. Python's `needle in hay`. -/
def strContainsSub (hay needle : String) : Bool :=
  containsSubAux needle.toList hay.toList

/-- Numeric value of a digit string. -/
def natOfDigits (cs : List Char) : Nat :=
  cs.foldl (fun n c => 10 * n + (c.toNat - 48)) 0

/-! ### Regex scanners used by the field parsers -/

/-- Leftmost match of `(\d+\.?\d*)` (the numeral inside a percentage cell):
returns the matched characters. -/
def scanNumeral : List Char → Option (List Char)
  | [] => none
  | c :: rest =>
    if c.isDigit then
      let ds := (c :: rest).takeWhile Char.isDigit
      let r1 := (c :: rest).dropWhile Char.isDigit
      match r1 with
      | '.' :: r2 => some (ds ++ '.' :: r2.takeWhile Char.isDigit)
      | _ => some ds
    else scanNumeral rest

/-- Value of a matched numeral `digits ['.' digits]` as an exact decimal,
modelling `float(...)` applied to it. -/
def pyFloatOfNumeral (cs : List Char) : PyFloat :=
  let intPart := cs.takeWhile Char.isDigit
  let rest := cs.dropWhile Char.isDigit
  let frac := match rest with
    | '.' :: fs => fs
    | _ => []
  { num := (natOfDigits (intPart ++ frac) : Int), pow := frac.length }

/-- Leftmost match of `(\d{3,})`: the first position whose maximal digit
run has length at least three (positions inside a too-short run only see
shorter runs, so stepping one character at a time is the engine's
behaviour). -/
def scanDigitRun3 : List Char → Option (List Char)
  | [] => none
  | c :: rest =>
    if c.isDigit then
      let ds := (c :: rest).takeWhile Char.isDigit
      if 3 ≤ ds.length then some ds
      else scanDigitRun3 rest
    else scanDigitRun3 rest

/-- Match of `20\d{2}` anchored at the start of the input. -/
def matchYearAt (cs : List Char) : Option Nat :=
  match cs with
  | '2' :: '0' :: c1 :: c2 :: _ =>
    if c1.isDigit && c2.isDigit then
      some (2000 + 10 * (c1.toNat - 48) + (c2.toNat - 48))
    else none
  | _ => none

/-- Leftmost match of `20\d{2}`, as a year number. -/
def findYear : List Char → Option Nat
  | [] => none
  | c :: rest =>
    match matchYearAt (c :: rest) with
    | some y => some y
    | none => findYear rest

/-- Match `\s+([A-Za-z]+)` at the start of the input, returning the letter
group. -/
def matchSpaceAlpha (cs : List Char) : Option (List Char) :=
  let ws := cs.takeWhile isPyWs
  if ws.isEmpty then none
  else
    let al := (cs.dropWhile isPyWs).takeWhile Char.isAlpha
    if al.isEmpty then none else some al

/-- Leftmost match of `(\d{1,2})\s+([A-Za-z]+)` with the regex engine's
greedy/backtracking behaviour: returns the day value and the letter group. -/
def findDayMonth : List Char → Option (Nat × List Char)
  | [] => none
  | c :: rest =>
    if c.isDigit then
      match rest with
      | c2 :: rest2 =>
        if c2.isDigit then
          match matchSpaceAlpha rest2 with
          | some m => some (10 * (c.toNat - 48) + (c2.toNat - 48), m)
          | none =>
            match matchSpaceAlpha (c2 :: rest2) with
            | some m => some (c.toNat - 48, m)
            | none => findDayMonth rest
        else
          match matchSpaceAlpha (c2 :: rest2) with
          | some m => some (c.toNat - 48, m)
          | none => findDayMonth rest
      | [] => none
    else findDayMonth rest

/-- Leftmost match of `(\d{1,2})` (greedy), as a number. -/
def findDayNum : List Char → Option Nat
  | [] => none
  | c :: rest =>
    if c.isDigit then
      match rest with
      | c2 :: _ =>
        if c2.isDigit then some (10 * (c.toNat - 48) + (c2.toNat - 48))
        else some (c.toNat - 48)
      | [] => some (c.toNat - 48)
    else findDayNum rest

/-- The dash-like separators of `re.split(r"[–—\-−]", text, maxsplit=1)`:
en dash, em dash, hyphen, minus sign. -/
def isDashSep (c : Char) : Bool :=
  c = '–' || c = '—' || c = '-' || c = '−'

/-- Split once at the first dash-like separator; `none` when there is no
separator (so `re.split` returns a single part). -/
def splitDashOnce (cs : List Char) : Option (List Char × List Char) :=
  let before := cs.takeWhile (fun c => !isDashSep c)
  match cs.dropWhile (fun c => !isDashSep c) with
  | [] => none
  | _ :: after => some (before, after)

/-! ### Field value parsers (`_parse_percentage`, `_parse_sample_size`,
`_parse_date_text`, `_parse_fieldwork_dates`) -/

/-- The en dash, em dash and minus-sign glyphs removed by
`_parse_percentage`. -/
def isPctDash (c : Char) : Bool := c = '–' || c = '—' || c = '−'

/-- Model of `_parse_percentage`. -/
def parse_percentage (text : String) : Option PyFloat :=
  let t := (pyStripList text.toList).filter (fun c => !isPctDash c)
  if t = [] ∨ t = ['N', '/', 'A'] then none
  else
    match scanNumeral t with
    | some n => some (pyFloatOfNumeral n)
    | none => none

/-- Model of `_parse_sample_size`. -/
def parse_sample_size (text : String) : Option Nat :=
  let t := (pyStripList text.toList).filter (fun c => !(c = ',' || c = ' '))
  match scanDigitRun3 t with
  | some ds => some (natOfDigits ds)
  | none => none

/-- The month-name dictionary of `_parse_date_text`. -/
def monthsMap : List (String × Nat) :=
  [("jan", 1), ("feb", 2), ("mar", 3), ("apr", 4), ("may", 5), ("jun", 6),
   ("jul", 7), ("aug", 8), ("sep", 9), ("oct", 10), ("nov", 11), ("dec", 12),
   ("january", 1), ("february", 2), ("march", 3), ("april", 4),
   ("june", 6), ("july", 7), ("august", 8), ("september", 9),
   ("october", 10), ("november", 11), ("december", 12)]

/-- Model of `_parse_date_text`.  The `year` argument is `none` when the
Python caller omits it; `todayYear` stands for `date.today().year`. -/
def parse_date_text (text : String) (year : Option Nat) (todayYear : Nat) :
    Option PyDate :=
  let t := pyStripList text.toList
  if t.isEmpty then none
  else
    let y := match year with
      | some yy => if yy = 0 then (findYear t).getD todayYear else yy
      | none => (findYear t).getD todayYear
    match findDayMonth t with
    | none => none
    | some (day, monthChars) =>
      match monthsMap.lookup (⟨monthChars.map lowerChar⟩ : String) with
      | none => none
      | some m => if 1 ≤ day ∧ day ≤ 31 then pyDateMk y m day else none

/-- Model of `_parse_fieldwork_dates`, returning `(start, end)`. -/
def parse_fieldwork_dates (text : String) (todayYear : Nat) :
    Option PyDate × Option PyDate :=
  let t := pyStripList text.toList
  if t.isEmpty then (none, none)
  else
    let year := (findYear t).getD todayYear
    match splitDashOnce t with
    | some (p0, p1) =>
      let endD := parse_date_text (⟨pyStripList p1⟩ : String) (some year) todayYear
      let startD := parse_date_text (⟨pyStripList p0⟩ : String) (some year) todayYear
      let startD :=
        match startD, endD with
        | none, some e =>
          (match findDayNum (pyStripList p0) with
           | some dn => pyDateMk year e.month dn
           | none => none)
        | s, _ => s
      (startD, endD)
    | none =>
      let d := parse_date_text (⟨t⟩ : String) (some year) todayYear
      (d, d)

/-! ### Column identification (`_identify_columns`) -/

/-- The `PARTY_COLUMN_MAP` synonym table of the scraper. -/
def PARTY_COLUMN_MAP : List (String × String) :=
  [("con", "con"), ("conservative", "con"), ("lab", "lab"), ("labour", "lab"),
   ("lib dem", "lib_dem"), ("libdem", "lib_dem"), ("ld", "lib_dem"),
   ("liberal democrats", "lib_dem"), ("reform", "reform"),
   ("reform uk", "reform"), ("ref", "reform"), ("green", "green"),
   ("greens", "green"), ("snp", "snp"), ("other", "other"),
   ("others", "other")]

/-- Classification of one header cell, following the if/elif chain of
`_identify_columns`. -/
def classifyHeader (header : String) : Option String :=
  let h := lowerStr (pyStrip header)
  match PARTY_COLUMN_MAP.lookup h with
  | some v => some v
  | none =>
    if strContainsSub h "date" || strContainsSub h "fieldwork" then
      some "fieldwork"
    else if strContainsSub h "polling" || strContainsSub h "pollster" ||
        strContainsSub h "organisation" then some "pollster"
    else if strContainsSub h "client" || strContainsSub h "commissioner" then
      some "client"
    else if strContainsSub h "sample" || strContainsSub h "size" then
      some "sample_size"
    else if strContainsSub h "area" then some "area"
    else if strContainsSub h "lead" then some "lead"
    else none

/-- Model of `_identify_columns`: the column map as an association list in
insertion order (each index appears at most once, in increasing order, so
this is exactly the Python dict with its iteration order). -/
def identify_columns (headerCells : List String) : List (Nat × String) :=
  headerCells.enum.filterMap
    (fun ic => (classifyHeader ic.2).map (fun f => (ic.1, f)))

/-! ### Table model and the grid builder (`_expand_rowspans`) -/

/-- One table cell: its raw `rowspan`/`colspan` attribute strings (absent
attribute = `none`, defaulting to 1) and its stripped visible text. -/
structure Cell where
  rowspan : Option String
  colspan : Option String
  text : String
deriving DecidableEq

/-- One HTML table: its `class` attribute values and its rows of cells. -/
structure HTable where
  classes : List String
  rows : List (List Cell)
deriving DecidableEq

/-- Model of Python `int(s)` on a string: optional surrounding whitespace,
optional sign, at least one digit; anything else raises (`none`). -/
def pyInt (s : String) : Option Int :=
  match pyStripList s.toList with
  | '-' :: ds =>
    if ds ≠ [] ∧ ds.all Char.isDigit then some (-(natOfDigits ds : Int))
    else none
  | '+' :: ds =>
    if ds ≠ [] ∧ ds.all Char.isDigit then some ((natOfDigits ds : Int))
    else none
  | ds =>
    if ds ≠ [] ∧ ds.all Char.isDigit then some ((natOfDigits ds : Int))
    else none

/-- Model of `int(cell.get("rowspan", 1))` (and likewise for `colspan`):
an absent attribute defaults to the integer 1, a present attribute is
converted with `int(...)`, whose failure is an uncaught `ValueError`. -/
def spanOf (attr : Option String) : Except Unit Int :=
  match attr with
  | none => .ok 1
  | some s =>
    match pyInt s with
    | some n => .ok n
    | none => .error ()

/-- Sum of the colspans of one row (first pass of `_expand_rowspans`). -/
def rowColsSum (r : List Cell) : Except Unit Int :=
  r.foldlM (fun acc c => do
    let n ← spanOf c.colspan
    pure (acc + n)) 0

/-- The `max_cols` computation of `_expand_rowspans`. -/
def computeMaxCols (rows : List (List Cell)) : Except Unit Int :=
  rows.foldlM (fun acc r => do
    let n ← rowColsSum r
    pure (max acc n)) 0

/-- Python list read `l[i]` including negative-index wrap-around;
`none` is an `IndexError`. -/
def pyIdx (l : List (Option String)) (i : Int) : Option (Option String) :=
  if 0 ≤ i then l.get? i.toNat
  else if i.natAbs ≤ l.length then l.get? (l.length - i.natAbs)
  else none

/-- Python list write `l[i] = a` including negative-index wrap-around;
`none` is an `IndexError`. -/
def pySet (l : List (Option String)) (i : Int) (a : Option String) :
    Option (List (Option String)) :=
  if 0 ≤ i then
    (if i.toNat < l.length then some (l.set i.toNat a) else none)
  else if i.natAbs ≤ l.length then some (l.set (l.length - i.natAbs) a)
  else none

/-- Fuelled unrolling of the cursor-advance loop; the fuel only bounds
the number of iterations (the loop ends as soon as the guard fails or an
unfilled slot is reached), and the zero-fuel branch is unreachable for
the fuel supplied by `advanceCursor`. -/
def advanceGo (row : List (Option String)) (maxCols : Int) :
    Int → Nat → Except Unit Int
  | colIdx, 0 => .ok colIdx
  | colIdx, fuel + 1 =>
    if colIdx < maxCols then
      match pyIdx row colIdx with
      | none => .error ()
      | some none => .ok colIdx
      | some (some _) => advanceGo row maxCols (colIdx + 1) fuel
    else .ok colIdx

/-- The cursor-advance loop of `_expand_rowspans`:
`while col_idx < max_cols and grid[row_idx][col_idx] is not None`.  The
cursor strictly increases while staying below `maxCols`, so
`(maxCols - colIdx).toNat + 1` iterations always suffice. -/
def advanceCursor (row : List (Option String)) (maxCols colIdx : Int) :
    Except Unit Int :=
  advanceGo row maxCols colIdx ((maxCols - colIdx).toNat + 1)

/-- One write `grid[r][c] = text` guarded by
`if r < len(grid) and c < max_cols`. -/
def writeCell (grid : List (List (Option String))) (r : Nat)
    (c maxCols : Int) (text : String) :
    Except Unit (List (List (Option String))) :=
  if r < grid.length ∧ c < maxCols then
    match grid.get? r with
    | none => .error ()
    | some rowList =>
      match pySet rowList c (some text) with
      | some row2 => .ok (grid.set r row2)
      | none => .error ()
  else .ok grid

/-- The `rowspan × colspan` rectangle fill of `_expand_rowspans`. -/
def fillRect (grid : List (List (Option String))) (rowIdx : Nat)
    (colIdx rowspan colspan : Int) (text : String) (maxCols : Int) :
    Except Unit (List (List (Option String))) :=
  (List.range rowspan.toNat).foldlM
    (fun g (dr : Nat) =>
      (List.range colspan.toNat).foldlM
        (fun g2 (dc : Nat) =>
          writeCell g2 (rowIdx + dr) (colIdx + (dc : Int)) maxCols text)
        g)
    grid

/-- The per-row cell loop of `_expand_rowspans` (cursor advance, break on
overflow, attribute conversion, rectangle fill, cursor bump). -/
def procCells (maxCols : Int) (rowIdx : Nat) :
    List Cell → List (List (Option String)) → Int →
      Except Unit (List (List (Option String)))
  | [], grid, _ => .ok grid
  | cell :: rest, grid, colIdx => do
    let c2 ← advanceCursor (grid.getD rowIdx []) maxCols colIdx
    if maxCols ≤ c2 then .ok grid
    else do
      let rs ← spanOf cell.rowspan
      let cs ← spanOf cell.colspan
      let g2 ← fillRect grid rowIdx c2 rs cs cell.text maxCols
      procCells maxCols rowIdx rest g2 (c2 + cs)

/-- The row loop of `_expand_rowspans`. -/
def procRows (maxCols : Int) :
    Nat → List (List Cell) → List (List (Option String)) →
      Except Unit (List (List (Option String)))
  | _, [], grid => .ok grid
  | idx, r :: rest, grid => do
    let g2 ← procCells maxCols idx r grid 0
    procRows maxCols (idx + 1) rest g2

/-- Model of `_expand_rowspans`. -/
def expand_rowspans (t : HTable) : Except Unit (List (List String)) :=
  if t.rows.isEmpty then .ok []
  else do
    let mc ← computeMaxCols t.rows
    let grid0 :=
      List.replicate t.rows.length
        (List.replicate mc.toNat (none : Option String))
    let g ← procRows mc 0 t.rows grid0
    pure (g.map (fun r => r.map (fun c => c.getD "")))

/-! ### Table locator and header detector -/

/-- Lower-cased full visible text of a table
(`table.get_text(strip=True).lower()`); cell texts are stored stripped. -/
def tableTextLower (t : HTable) : String :=
  lowerStr ⟨(t.rows.flatten.map (fun c => c.text.toList)).flatten⟩

/-- The required-party token set of the locator. -/
def requiredParties : List String := ["con", "lab", "reform", "green"]

/-- The locator's test on one candidate table. -/
def isTargetTable (t : HTable) : Bool :=
  requiredParties.all (fun p => strContainsSub (tableTextLower t) p)

/-- The five party fields counted by the header detector. -/
def parties5 : List String := ["con", "lab", "lib_dem", "reform", "green"]

/-- Whether a grid row qualifies as the header row: its column map names
at least three distinct fields among `parties5`. -/
def rowQualifies (row : List String) : Bool :=
  3 ≤ (((identify_columns row).map Prod.snd).filter
        (fun v => parties5.contains v)).dedup.length

/-- The header-row scan over rows `0 .. min(4, len(grid)) - 1`. -/
def findHeaderRow (grid : List (List String)) : Option Nat :=
  (List.range (min 4 grid.length)).find? (fun i => rowQualifies (grid.getD i []))

/-! ### Row-to-record mapping and `scrape_polls` -/

/-- Mirror of the `PollResult` pydantic model. -/
structure PollResult where
  pollster : String
  client : Option String
  fieldwork_start : Option PyDate
  fieldwork_end : Option PyDate
  sample_size : Option Nat
  con : Option PyFloat
  lab : Option PyFloat
  lib_dem : Option PyFloat
  reform : Option PyFloat
  green : Option PyFloat
  snp : Option PyFloat
  other : Option PyFloat
  lead_party : Option String
  lead_pct : Option PyFloat
  source_url : Option String
deriving DecidableEq

/-- The `party_fields` set of `scrape_polls`. -/
def party_fields : List String :=
  ["con", "lab", "lib_dem", "reform", "green", "snp", "other"]

/-- The `party_display` table of `scrape_polls`. -/
def party_display : List (String × String) :=
  [("con", "Conservative"), ("lab", "Labour"),
   ("lib_dem", "Liberal Democrats"), ("reform", "Reform UK"),
   ("green", "Green"), ("snp", "SNP"), ("other", "Other")]

/-- Display name of a leading party:
`party_display.get(best_party, best_party)`. -/
def displayName (p : String) : String := (party_display.lookup p).getD p

/-- Python dict update `d[k] = v` on an association list: in-place value
update when the key exists (keeping its position), append otherwise. -/
def assocUpd (l : List (String × Option PyFloat)) (k : String)
    (v : Option PyFloat) : List (String × Option PyFloat) :=
  match l with
  | [] => [(k, v)]
  | (k0, v0) :: rest =>
    if k0 = k then (k0, v) :: rest else (k0, v0) :: assocUpd rest k v

/-- The mutable per-row state of the row loop of `scrape_polls`: the
`data` dict (outer `Option` = key present) and the `party_values` dict in
insertion order. -/
structure RowAcc where
  pollster : Option String
  client : Option (Option String)
  fwStart : Option (Option PyDate)
  fwEnd : Option (Option PyDate)
  sampleSize : Option (Option Nat)
  pv : List (String × Option PyFloat)
deriving DecidableEq

/-- Initial row state (empty dicts). -/
def initAcc : RowAcc := ⟨none, none, none, none, none, []⟩

/-- One step of the `for col_idx, field in col_map.items()` loop. -/
def stepCol (todayYear : Nat) (row : List String) (acc : RowAcc)
    (ci : Nat × String) : RowAcc :=
  match row.get? ci.1 with
  | none => acc
  | some cellText =>
    if ci.2 = "fieldwork" then
      let se := parse_fieldwork_dates cellText todayYear
      { acc with fwStart := some se.1, fwEnd := some se.2 }
    else if ci.2 = "pollster" then { acc with pollster := some cellText }
    else if ci.2 = "client" then
      { acc with client := some (if cellText = "" then none else some cellText) }
    else if ci.2 = "sample_size" then
      { acc with sampleSize := some (parse_sample_size cellText) }
    else if party_fields.contains ci.2 then
      { acc with pv := assocUpd acc.pv ci.2 (parse_percentage cellText) }
    else acc

/-- The whole column loop for one data row. -/
def rowAccOf (todayYear : Nat) (colMap : List (Nat × String))
    (row : List String) : RowAcc :=
  colMap.foldl (stepCol todayYear row) initAcc

/-- One iteration of the leading-party loop of `scrape_polls`
(`if v is not None and v > best_val`). -/
def bfStep (acc : Option String × PyFloat) (e : String × Option PyFloat) :
    Option String × PyFloat :=
  match e.2 with
  | some x => if pfLt acc.2 x then (some e.1, x) else acc
  | none => acc

/-- The leading-party fold of `scrape_polls` (`best_party`, `best_val`,
starting from `None, -1.0`). -/
def bestFold (pv : List (String × Option PyFloat)) : Option String × PyFloat :=
  pv.foldl bfStep (none, ⟨-1, 0⟩)

/-- One iteration of the runner-up loop of `scrape_polls`
(`if v is not None and p != best_party and v > second_val`). -/
def sfStep (best : Option String) (sv : PyFloat) (e : String × Option PyFloat) :
    PyFloat :=
  match e.2 with
  | some x => if some e.1 ≠ best ∧ pfLt sv x then x else sv
  | none => sv

/-- The runner-up fold of `scrape_polls` (`second_val`, starting from
`-1.0`, skipping the leading party). -/
def secondFold (pv : List (String × Option PyFloat)) (best : Option String) :
    PyFloat :=
  pv.foldl (sfStep best) ⟨-1, 0⟩

/-- Processing of one data row of the grid: returns the emitted
`PollResult`, or `none` when the row is skipped. -/
def processRow (colMap : List (Nat × String)) (row : List String)
    (url : String) (todayYear : Nat) : Option PollResult :=
  if (row.filter (fun c => pyStripList c.toList ≠ [])).length < 3 then none
  else
    let acc := rowAccOf todayYear colMap row
    let pollster := pyStrip (acc.pollster.getD "")
    if pollster = "" ∨ acc.pv.all (fun e => e.2.isNone) then none
    else
      let bb := bestFold acc.pv
      let sv := secondFold acc.pv bb.1
      some
        { pollster := pollster
          client := acc.client.getD none
          fieldwork_start := acc.fwStart.getD none
          fieldwork_end := acc.fwEnd.getD none
          sample_size := acc.sampleSize.getD none
          con := (acc.pv.lookup "con").getD none
          lab := (acc.pv.lookup "lab").getD none
          lib_dem := (acc.pv.lookup "lib_dem").getD none
          reform := (acc.pv.lookup "reform").getD none
          green := (acc.pv.lookup "green").getD none
          snp := (acc.pv.lookup "snp").getD none
          other := (acc.pv.lookup "other").getD none
          lead_party := bb.1.map displayName
          lead_pct :=
            if pfLe ⟨0, 0⟩ sv then some (pyRound1 (pfSub bb.2 sv)) else none
          source_url := some url }

/-- The sort key `p.fieldwork_end or date.min`. -/
def dateKey (p : PollResult) : PyDate := p.fieldwork_end.getD dateMin

/-- The comparator realised by `reverse=True` over the sort key: `a` may
precede `b` when `b`'s key is at most `a`'s key. -/
def pollLeB (a b : PollResult) : Bool := decide (dateLe (dateKey b) (dateKey a))

/-- The final `polls.sort(key=..., reverse=True)`: a stable sort placing
larger fieldwork-end keys first. -/
def sortPolls (polls : List PollResult) : List PollResult :=
  polls.mergeSort pollLeB

/-- Model of `scrape_polls` downstream of the network fetch: from the
parsed page (list of tables) to the ordered record list.  `.error ()` is
an uncaught exception escaping the pipeline. -/
def scrape_polls (markup : List HTable) (url : String) (todayYear : Nat) :
    Except Unit (List PollResult) :=
  let tables := markup.filter (fun t => t.classes.contains "wikitable")
  if tables.isEmpty then .ok []
  else
    match tables.find? isTargetTable with
    | none => .ok []
    | some target => do
      let grid ← expand_rowspans target
      if grid.length < 3 then .ok []
      else
        match findHeaderRow grid with
        | none => .ok []
        | some hi =>
          let colMap := identify_columns (grid.getD hi [])
          let recs := (grid.drop (hi + 1)).filterMap
            (fun row => processRow colMap row url todayYear)
          .ok (sortPolls recs)

/-! ### Concrete inputs used by counterexamples and witnesses -/

/-- A cell with no span attributes. -/
def plainCell (t : String) : Cell := ⟨none, none, t⟩

/-- A minimal polling table whose Lab column precedes its Con column and
whose single data row has Con and Lab tied for the maximum. -/
def tieTable : HTable :=
  ⟨["wikitable"],
   [[plainCell "Pollster", plainCell "Fieldwork", plainCell "Lab",
     plainCell "Con", plainCell "Reform", plainCell "Green"],
    [plainCell "Acme Polling", plainCell "1-3 Feb 2026", plainCell "30",
     plainCell "30", plainCell "20", plainCell "10"],
    [plainCell "", plainCell "", plainCell "", plainCell "", plainCell "",
     plainCell ""]]⟩

/-- The single record scraped from `tieTable`. -/
def tieRec : PollResult :=
  { pollster := "Acme Polling", client := none,
    fieldwork_start := some ⟨2026, 2, 1⟩, fieldwork_end := some ⟨2026, 2, 3⟩,
    sample_size := none,
    con := some ⟨30, 0⟩, lab := some ⟨30, 0⟩, lib_dem := none,
    reform := some ⟨20, 0⟩, green := some ⟨10, 0⟩, snp := none, other := none,
    lead_party := some "Labour", lead_pct := some ⟨0, 1⟩,
    source_url := some "u" }

/-- The column map of `tieTable`'s header row. -/
def tieColMap : List (Nat × String) :=
  [(0, "pollster"), (1, "fieldwork"), (2, "lab"), (3, "con"),
   (4, "reform"), (5, "green")]

/-- The data row of `tieTable`. -/
def tieRow : List String :=
  ["Acme Polling", "1-3 Feb 2026", "30", "30", "20", "10"]

/-- A located table containing a cell whose `colspan` attribute is not a
number: `int("abc")` raises inside `_expand_rowspans`. -/
def crashTable : HTable :=
  ⟨["wikitable"], [[⟨none, some "abc", "Con Lab Reform Green"⟩]]⟩

/-- Rows `[X, A(rowspan=2)]` then `[C(colspan=2)]`: the rowspan of `A`
claims slot (1,1), which the colspan-2 cell `C` then overwrites. -/
def ovTable : HTable :=
  ⟨[], [[⟨none, none, "X"⟩, ⟨some "2", none, "A"⟩],
        [⟨none, some "2", "C"⟩]]⟩


/-! ### Invariant definitions used by the proofs -/

/-- Invariant of the `party_values` dict: keys are party fields, present
values are nonnegative parsed percentages, keys are distinct. -/
def pvInv (pv : List (String × Option PyFloat)) : Prop :=
  (∀ e ∈ pv, e.1 ∈ party_fields ∧ ∀ x, e.2 = some x → 0 ≤ x.num) ∧
  (pv.map Prod.fst).Nodup

/-- Both span attributes of a cell convert cleanly to nonnegative
integers (the domain on which `_expand_rowspans` is exercised). -/
def cellSpansOk (c : Cell) : Prop :=
  (∃ k, spanOf c.rowspan = .ok k ∧ 0 ≤ k) ∧
  (∃ k, spanOf c.colspan = .ok k ∧ 0 ≤ k)

/-- All cells of a table have clean nonnegative spans. -/
def wellSpanned (t : HTable) : Prop := ∀ r ∈ t.rows, ∀ c ∈ r, cellSpansOk c

/-- Working invariant of the fill loops: the grid is rectangular
`n × m` and every filled slot holds the text of some cell of `t`. -/
def gridOk (t : HTable) (n m : Nat) (g : List (List (Option String))) :
    Prop :=
  g.length = n ∧ (∀ row ∈ g, row.length = m) ∧
  ∀ row ∈ g, ∀ s ∈ row, s = none ∨ ∃ r0 ∈ t.rows, ∃ c0 ∈ r0, s = some c0.text

/-! ### Order lemmas for the exact decimal model -/

/-- Stated cross-multiplied order agrees with the denoted rational order. -/
theorem pfLt_iff_val (a b : PyFloat) : pfLt a b ↔ pfVal a < pfVal b := by
  unfold pfLt pfVal
  rw [div_lt_div_iff₀ (by positivity) (by positivity)]
  exact_mod_cast Iff.rfl

/-- Stated cross-multiplied order agrees with the denoted rational order. -/
theorem pfLe_iff_val (a b : PyFloat) : pfLe a b ↔ pfVal a ≤ pfVal b := by
  unfold pfLe pfVal
  rw [div_le_div_iff₀ (by positivity) (by positivity)]
  exact_mod_cast Iff.rfl

theorem pfLe_refl (a : PyFloat) : pfLe a a := by
  rw [pfLe_iff_val]

theorem pfLe_trans {a b c : PyFloat} (h1 : pfLe a b) (h2 : pfLe b c) :
    pfLe a c := by
  rw [pfLe_iff_val] at *
  exact le_trans h1 h2

theorem pfLt_of_le_of_lt {a b c : PyFloat} (h1 : pfLe a b) (h2 : pfLt b c) :
    pfLt a c := by
  rw [pfLe_iff_val] at h1
  rw [pfLt_iff_val] at *
  exact lt_of_le_of_lt h1 h2

theorem pfLt_of_lt_of_le {a b c : PyFloat} (h1 : pfLt a b) (h2 : pfLe b c) :
    pfLt a c := by
  rw [pfLe_iff_val] at h2
  rw [pfLt_iff_val] at *
  exact lt_of_lt_of_le h1 h2

theorem pfLe_of_lt {a b : PyFloat} (h : pfLt a b) : pfLe a b := by
  rw [pfLt_iff_val] at h
  rw [pfLe_iff_val]
  exact le_of_lt h

theorem pfLe_of_not_lt {a b : PyFloat} (h : ¬ pfLt a b) : pfLe b a := by
  rw [pfLt_iff_val] at h
  rw [pfLe_iff_val]
  exact le_of_not_lt h

/-- Subtraction is nonnegative (as a numerator) exactly when the
subtrahend is no larger. -/
theorem pfSub_num_nonneg {a b : PyFloat} (h : pfLe b a) :
    0 ≤ (pfSub a b).num := by
  unfold pfLe at h
  show 0 ≤ a.num * (10 : Int) ^ b.pow - b.num * (10 : Int) ^ a.pow
  omega

/-- Rounding a nonnegative decimal stays nonnegative. -/
theorem pyRound1_nonneg {x : PyFloat} (h : 0 ≤ x.num) :
    pfLe ⟨0, 0⟩ (pyRound1 x) := by
  unfold pyRound1 pfLe
  have hq : (0 : Int) ≤ x.num * 10 := by positivity
  have hd : (0 : Int) ≤ (10 : Int) ^ x.pow := by positivity
  have hf : (0 : Int) ≤ Int.fdiv (x.num * 10) ((10 : Int) ^ x.pow) :=
    Int.fdiv_nonneg hq hd
  simp only []
  split <;> [skip; split] <;> simp <;> omega

/-- Values produced by the percentage parser are nonnegative. -/
theorem parse_percentage_nonneg {s : String} {x : PyFloat}
    (h : parse_percentage s = some x) : 0 ≤ x.num := by
  unfold parse_percentage at h
  dsimp only at h
  split at h
  · exact absurd h (by simp)
  · split at h
    · simp only [Option.some.injEq] at h
      subst h
      unfold pyFloatOfNumeral
      exact Int.ofNat_nonneg _
    · exact absurd h (by simp)

/-! ### Date order lemmas -/

theorem dateLe_trans {a b c : PyDate} (h1 : dateLe a b) (h2 : dateLe b c) :
    dateLe a c := by
  unfold dateLe at *
  omega

theorem dateLe_total (a b : PyDate) : dateLe a b ∨ dateLe b a := by
  unfold dateLe
  omega

theorem not_dateLe_of_lt {a b : PyDate} (h : dateLt a b) : ¬ dateLe b a := by
  unfold dateLt at h
  unfold dateLe
  omega

/-! ### Year propagation through the date parsers -/

/-- A year found by the `20\d{2}` scanner is at least 2000. -/
theorem matchYearAt_ge {cs : List Char} {y : Nat}
    (h : matchYearAt cs = some y) : 2000 ≤ y := by
  unfold matchYearAt at h
  split at h
  · split at h
    · simp only [Option.some.injEq] at h
      omega
    · cases h
  · cases h

theorem findYear_ge {cs : List Char} {y : Nat} (h : findYear cs = some y) :
    2000 ≤ y := by
  induction cs with
  | nil => cases h
  | cons c rest ih =>
    rw [findYear] at h
    split at h
    · rename_i y2 hm
      simp only [Option.some.injEq] at h
      exact h ▸ matchYearAt_ge hm
    · exact ih h

/-- When `_parse_date_text` is handed a nonzero year, the produced date
carries exactly that year. -/
theorem parse_date_text_year {t : String} {yy todayYear : Nat} {d : PyDate}
    (hyy : yy ≠ 0) (h : parse_date_text t (some yy) todayYear = some d) :
    d.year = yy := by
  unfold parse_date_text at h
  dsimp only at h
  rw [if_neg hyy] at h
  split at h
  · exact absurd h (by simp)
  · split at h
    · exact absurd h (by simp)
    · split at h
      · exact absurd h (by simp)
      · split at h
        · unfold pyDateMk at h
          split at h
          · simp only [Option.some.injEq] at h
            subst h
            rfl
          · exact absurd h (by simp)
        · exact absurd h (by simp)

/-- Under a sane current year, any fieldwork end date produced by
`_parse_fieldwork_dates` has year at least 2. -/
theorem parse_fieldwork_dates_end_year {s : String} {todayYear : Nat}
    {d : PyDate} (hy : 2 ≤ todayYear)
    (h : (parse_fieldwork_dates s todayYear).2 = some d) : 2 ≤ d.year := by
  unfold parse_fieldwork_dates at h
  dsimp only at h
  split at h
  · exact absurd h (by simp)
  · have hyear : 2 ≤ (findYear (pyStripList s.toList)).getD todayYear := by
      cases hfy : findYear (pyStripList s.toList) with
      | none => simpa using hy
      | some y =>
        have := findYear_ge hfy
        simpa [hfy] using by omega
    split at h
    · simp only at h
      have := parse_date_text_year (by omega) h
      omega
    · simp only at h
      have := parse_date_text_year (by omega) h
      omega

/-- A date with year at least 2 is strictly later than `date.min`. -/
theorem dateMin_lt_of_year {d : PyDate} (h : 2 ≤ d.year) :
    dateLt dateMin d := by
  unfold dateLt dateMin
  left
  simpa using by omega

/-! ### Association-list (Python dict) lemmas -/

theorem assocUpd_mem {l : List (String × Option PyFloat)} {k : String}
    {v : Option PyFloat} {e : String × Option PyFloat}
    (h : e ∈ assocUpd l k v) : e ∈ l ∨ e = (k, v) := by
  induction l with
  | nil => simpa [assocUpd] using h
  | cons hd tl ih =>
    unfold assocUpd at h
    split at h
    · rename_i hk
      rcases List.mem_cons.1 h with h1 | h1
      · right
        rw [h1, hk]
      · left
        exact List.mem_cons_of_mem _ h1
    · rcases List.mem_cons.1 h with h1 | h1
      · left
        exact h1 ▸ List.mem_cons_self _ _
      · rcases ih h1 with h2 | h2
        · exact Or.inl (List.mem_cons_of_mem _ h2)
        · exact Or.inr h2

theorem assocUpd_mem_keys {l : List (String × Option PyFloat)} {k a : String}
    {v : Option PyFloat} (h : a ∈ (assocUpd l k v).map Prod.fst) :
    a ∈ l.map Prod.fst ∨ a = k := by
  rcases List.mem_map.1 h with ⟨e, he, rfl⟩
  rcases assocUpd_mem he with h1 | h1
  · exact Or.inl (List.mem_map_of_mem _ h1)
  · right
    rw [h1]

theorem assocUpd_nodup {l : List (String × Option PyFloat)} {k : String}
    {v : Option PyFloat} (h : (l.map Prod.fst).Nodup) :
    ((assocUpd l k v).map Prod.fst).Nodup := by
  induction l with
  | nil => simp [assocUpd]
  | cons hd tl ih =>
    simp only [List.map_cons, List.nodup_cons] at h
    unfold assocUpd
    split
    · simpa [List.nodup_cons] using h
    · rename_i hk
      simp only [List.map_cons, List.nodup_cons]
      refine ⟨fun hmem => ?_, ih h.2⟩
      rcases assocUpd_mem_keys hmem with h1 | h1
      · exact h.1 h1
      · exact hk (id h1.symm ▸ rfl)

theorem lookup_of_mem_nodup {l : List (String × Option PyFloat)} {k : String}
    {v : Option PyFloat} (hnd : (l.map Prod.fst).Nodup) (h : (k, v) ∈ l) :
    l.lookup k = some v := by
  induction l with
  | nil => simp at h
  | cons hd tl ih =>
    simp only [List.map_cons, List.nodup_cons] at hnd
    rcases List.mem_cons.1 h with h1 | h1
    · rw [← h1]
      simp [List.lookup]
    · have hk : hd.1 ≠ k := by
        intro he
        exact hnd.1 (he ▸ List.mem_map_of_mem _ h1)
      cases hd with
      | mk k0 v0 =>
        simp only [List.lookup]
        have : (k == k0) = false := by
          simp only [beq_eq_false_iff_ne, ne_eq]
          intro he
          exact hk (by simpa using he.symm)
        rw [this]
        exact ih hnd.2 h1

/-! ### Invariants of the per-row accumulator -/

theorem stepCol_pvInv {y : Nat} {row : List String} {acc : RowAcc}
    {ci : Nat × String} (h : pvInv acc.pv) :
    pvInv (stepCol y row acc ci).pv := by
  unfold stepCol
  split
  · exact h
  · split
    · exact h
    · split
      · exact h
      · split
        · exact h
        · split
          · exact h
          · split
            · rename_i cellText _ _ _ _ hparty
              constructor
              · intro e he
                rcases assocUpd_mem he with h1 | h1
                · exact h.1 e h1
                · subst h1
                  refine ⟨by simpa using hparty, ?_⟩
                  intro x hx
                  exact parse_percentage_nonneg hx
              · exact assocUpd_nodup h.2
            · exact h

theorem rowAccOf_pvInv (y : Nat) (cm : List (Nat × String))
    (row : List String) : pvInv (rowAccOf y cm row).pv := by
  unfold rowAccOf
  suffices hgen : ∀ (l : List (Nat × String)) (acc : RowAcc), pvInv acc.pv →
      pvInv (l.foldl (stepCol y row) acc).pv by
    exact hgen cm initAcc (by constructor <;> simp [initAcc])
  intro l
  induction l with
  | nil => intro acc h; exact h
  | cons hd tl ih =>
    intro acc h
    exact ih _ (stepCol_pvInv h)

theorem stepCol_fwEnd {y : Nat} {row : List String} {acc : RowAcc}
    {ci : Nat × String} (hy : 2 ≤ y)
    (h : ∀ d, acc.fwEnd = some (some d) → 2 ≤ d.year) :
    ∀ d, (stepCol y row acc ci).fwEnd = some (some d) → 2 ≤ d.year := by
  unfold stepCol
  split
  · exact h
  · split
    · rename_i cellText hfw
      intro d hd
      simp only [Option.some.injEq] at hd
      exact parse_fieldwork_dates_end_year hy hd
    · split
      · exact h
      · split
        · exact h
        · split
          · exact h
          · split
            · exact h
            · exact h

theorem rowAccOf_fwEnd {y : Nat} {cm : List (Nat × String)}
    {row : List String} (hy : 2 ≤ y) :
    ∀ d, (rowAccOf y cm row).fwEnd = some (some d) → 2 ≤ d.year := by
  unfold rowAccOf
  suffices hgen : ∀ (l : List (Nat × String)) (acc : RowAcc),
      (∀ d, acc.fwEnd = some (some d) → 2 ≤ d.year) →
      ∀ d, (l.foldl (stepCol y row) acc).fwEnd = some (some d) → 2 ≤ d.year by
    exact hgen cm initAcc (by simp [initAcc])
  intro l
  induction l with
  | nil => intro acc h; exact h
  | cons hd tl ih =>
    intro acc h
    exact ih _ (stepCol_fwEnd hy h)

/-! ### Characterisation of the leading-party and runner-up folds -/

/-- Full characterisation of the `best_party`/`best_val` loop from an
arbitrary accumulator: either no present value beats the accumulator (and
it is returned unchanged), or the result is the first entry, in iteration
order, attaining the overall maximum. -/
theorem bestFold_char (pv : List (String × Option PyFloat)) :
    ∀ (b0 : Option String) (v0 : PyFloat),
      (pv.foldl bfStep (b0, v0) = (b0, v0) ∧
        ∀ e ∈ pv, ∀ x, e.2 = some x → pfLe x v0) ∨
      (∃ l1 k x l2, pv = l1 ++ (k, some x) :: l2 ∧
        pv.foldl bfStep (b0, v0) = (some k, x) ∧
        pfLt v0 x ∧
        (∀ e ∈ l1, ∀ y, e.2 = some y → pfLt y x) ∧
        (∀ e ∈ pv, ∀ y, e.2 = some y → pfLe y x)) := by
  induction pv with
  | nil =>
    intro b0 v0
    left
    exact ⟨rfl, by simp⟩
  | cons e tl ih =>
    intro b0 v0
    rcases he2 : e.2 with _ | x0
    · have hstep : bfStep (b0, v0) e = (b0, v0) := by simp [bfStep, he2]
      rw [List.foldl_cons, hstep]
      rcases ih b0 v0 with ⟨heq, hb⟩ | ⟨l1, k, x, l2, hdec, heq, hv0, hfirst, hub⟩
      · left
        refine ⟨heq, ?_⟩
        intro e1 he1 x hx
        rcases List.mem_cons.1 he1 with h1 | h1
        · rw [h1] at hx
          rw [he2] at hx
          cases hx
        · exact hb e1 h1 x hx
      · right
        refine ⟨e :: l1, k, x, l2, by rw [hdec]; rfl, heq, hv0, ?_, ?_⟩
        · intro e1 he1 y hy
          rcases List.mem_cons.1 he1 with h1 | h1
          · rw [h1, he2] at hy
            cases hy
          · exact hfirst e1 h1 y hy
        · intro e1 he1 y hy
          rcases List.mem_cons.1 he1 with h1 | h1
          · rw [h1, he2] at hy
            cases hy
          · exact hub e1 h1 y hy
    · by_cases hlt : pfLt v0 x0
      · have hstep : bfStep (b0, v0) e = (some e.1, x0) := by
          simp [bfStep, he2, hlt]
        rw [List.foldl_cons, hstep]
        rcases ih (some e.1) x0 with ⟨heq, hb⟩ |
          ⟨l1, k, x, l2, hdec, heq, hv0, hfirst, hub⟩
        · right
          refine ⟨[], e.1, x0, tl, by simp [← he2], heq, hlt, by simp, ?_⟩
          intro e1 he1 y hy
          rcases List.mem_cons.1 he1 with h1 | h1
          · rw [h1, he2] at hy
            cases hy
            exact pfLe_refl _
          · exact hb e1 h1 y hy
        · right
          refine ⟨e :: l1, k, x, l2, by rw [hdec]; rfl, heq,
            pfLt_of_lt_of_le hlt (pfLe_of_lt hv0), ?_, ?_⟩
          · intro e1 he1 y hy
            rcases List.mem_cons.1 he1 with h1 | h1
            · rw [h1, he2] at hy
              cases hy
              exact hv0
            · exact hfirst e1 h1 y hy
          · intro e1 he1 y hy
            rcases List.mem_cons.1 he1 with h1 | h1
            · rw [h1, he2] at hy
              cases hy
              exact pfLe_of_lt hv0
            · exact hub e1 h1 y hy
      · have hstep : bfStep (b0, v0) e = (b0, v0) := by
          simp [bfStep, he2, hlt]
        rw [List.foldl_cons, hstep]
        have hx0le : pfLe x0 v0 := pfLe_of_not_lt hlt
        rcases ih b0 v0 with ⟨heq, hb⟩ |
          ⟨l1, k, x, l2, hdec, heq, hv0, hfirst, hub⟩
        · left
          refine ⟨heq, ?_⟩
          intro e1 he1 y hy
          rcases List.mem_cons.1 he1 with h1 | h1
          · rw [h1, he2] at hy
            cases hy
            exact hx0le
          · exact hb e1 h1 y hy
        · right
          refine ⟨e :: l1, k, x, l2, by rw [hdec]; rfl, heq, hv0, ?_, ?_⟩
          · intro e1 he1 y hy
            rcases List.mem_cons.1 he1 with h1 | h1
            · rw [h1, he2] at hy
              cases hy
              exact pfLt_of_le_of_lt hx0le hv0
            · exact hfirst e1 h1 y hy
          · intro e1 he1 y hy
            rcases List.mem_cons.1 he1 with h1 | h1
            · rw [h1, he2] at hy
              cases hy
              exact pfLe_of_lt (pfLt_of_le_of_lt hx0le hv0)
            · exact hub e1 h1 y hy

/-- Characterisation of the `second_val` loop: the result is an upper
bound on all present values of non-leading entries, is itself either the
initial accumulator or such a value, and never decreases. -/
theorem secondFold_char (pv : List (String × Option PyFloat))
    (best : Option String) :
    ∀ v0 : PyFloat,
      pfLe v0 (pv.foldl (sfStep best) v0) ∧
      (∀ e ∈ pv, ∀ x, e.2 = some x → some e.1 ≠ best →
        pfLe x (pv.foldl (sfStep best) v0)) ∧
      (pv.foldl (sfStep best) v0 = v0 ∨
        ∃ k x, (k, some x) ∈ pv ∧ some k ≠ best ∧
          pv.foldl (sfStep best) v0 = x) := by
  induction pv with
  | nil =>
    intro v0
    exact ⟨pfLe_refl _, by simp, Or.inl rfl⟩
  | cons e tl ih =>
    intro v0
    rcases he2 : e.2 with _ | x0
    · have hstep : sfStep best v0 e = v0 := by simp [sfStep, he2]
      rw [List.foldl_cons, hstep]
      rcases ih v0 with ⟨h1, h2, h3⟩
      refine ⟨h1, ?_, ?_⟩
      · intro e1 he1 x hx hne
        rcases List.mem_cons.1 he1 with hm | hm
        · rw [hm, he2] at hx
          cases hx
        · exact h2 e1 hm x hx hne
      · rcases h3 with h3 | ⟨k, x, hk, hkne, hkeq⟩
        · exact Or.inl h3
        · exact Or.inr ⟨k, x, List.mem_cons_of_mem _ hk, hkne, hkeq⟩
    · by_cases hupd : some e.1 ≠ best ∧ pfLt v0 x0
      · have hstep : sfStep best v0 e = x0 := by simp [sfStep, he2, hupd]
        rw [List.foldl_cons, hstep]
        rcases ih x0 with ⟨h1, h2, h3⟩
        refine ⟨pfLe_trans (pfLe_of_lt hupd.2) h1, ?_, ?_⟩
        · intro e1 he1 x hx hne
          rcases List.mem_cons.1 he1 with hm | hm
          · rw [hm, he2] at hx
            cases hx
            exact h1
          · exact h2 e1 hm x hx hne
        · rcases h3 with h3 | ⟨k, x, hk, hkne, hkeq⟩
          · refine Or.inr ⟨e.1, x0, ?_, hupd.1, h3⟩
            have hpair : (e.1, some x0) = e := by
              rw [← he2]
            exact List.mem_cons.2 (Or.inl hpair)
          · exact Or.inr ⟨k, x, List.mem_cons_of_mem _ hk, hkne, hkeq⟩
      · have hstep : sfStep best v0 e = v0 := by
          simp only [sfStep, he2]
          rw [if_neg hupd]
        rw [List.foldl_cons, hstep]
        rcases ih v0 with ⟨h1, h2, h3⟩
        refine ⟨h1, ?_, ?_⟩
        · intro e1 he1 x hx hne
          rcases List.mem_cons.1 he1 with hm | hm
          · rw [hm, he2] at hx
            cases hx
            rcases not_and_or.1 hupd with hc | hc
            · exact absurd hne (by simpa [hm] using hc)
            · exact pfLe_trans (pfLe_of_not_lt hc) h1
          · exact h2 e1 hm x hx hne
        · rcases h3 with h3 | ⟨k, x, hk, hkne, hkeq⟩
          · exact Or.inl h3
          · exact Or.inr ⟨k, x, List.mem_cons_of_mem _ hk, hkne, hkeq⟩

/-- The runner-up value never exceeds the leading value. -/
theorem secondFold_le_bestFold_go (pv : List (String × Option PyFloat)) :
    ∀ (best b0 : Option String) (sv0 bv0 : PyFloat), pfLe sv0 bv0 →
      pfLe (pv.foldl (sfStep best) sv0) ((pv.foldl bfStep (b0, bv0)).2) := by
  induction pv with
  | nil =>
    intro best b0 sv0 bv0 h
    exact h
  | cons e tl ih =>
    intro best b0 sv0 bv0 h
    rw [List.foldl_cons, List.foldl_cons]
    rcases he2 : e.2 with _ | x0
    · have h1 : sfStep best sv0 e = sv0 := by simp [sfStep, he2]
      have h2 : bfStep (b0, bv0) e = (b0, bv0) := by simp [bfStep, he2]
      rw [h1, h2]
      exact ih best b0 sv0 bv0 h
    · by_cases hbu : pfLt bv0 x0
      · have h2 : bfStep (b0, bv0) e = (some e.1, x0) := by
          simp [bfStep, he2, hbu]
        rw [h2]
        by_cases hsu : some e.1 ≠ best ∧ pfLt sv0 x0
        · have h1 : sfStep best sv0 e = x0 := by simp [sfStep, he2, hsu]
          rw [h1]
          exact ih best _ _ _ (pfLe_refl _)
        · have h1 : sfStep best sv0 e = sv0 := by
            simp only [sfStep, he2]
            rw [if_neg hsu]
          rw [h1]
          exact ih best _ _ _ (pfLe_trans h (pfLe_of_lt hbu))
      · have h2 : bfStep (b0, bv0) e = (b0, bv0) := by
          simp [bfStep, he2, hbu]
        rw [h2]
        have hxle : pfLe x0 bv0 := pfLe_of_not_lt hbu
        by_cases hsu : some e.1 ≠ best ∧ pfLt sv0 x0
        · have h1 : sfStep best sv0 e = x0 := by simp [sfStep, he2, hsu]
          rw [h1]
          exact ih best _ _ _ hxle
        · have h1 : sfStep best sv0 e = sv0 := by
            simp only [sfStep, he2]
            rw [if_neg hsu]
          rw [h1]
          exact ih best _ _ _ h

/-! ### Destructuring an emitted record -/

/-- Everything `processRow` guarantees about an emitted record, phrased
field by field. -/
theorem processRow_some_eq {cm : List (Nat × String)} {row : List String}
    {url : String} {y : Nat} {rec : PollResult}
    (h : processRow cm row url y = some rec) :
    rec.pollster = pyStrip ((rowAccOf y cm row).pollster.getD "") ∧
    rec.pollster ≠ "" ∧
    ¬ ((rowAccOf y cm row).pv.all (fun e => e.2.isNone) = true) ∧
    rec.fieldwork_end = (rowAccOf y cm row).fwEnd.getD none ∧
    rec.con = ((rowAccOf y cm row).pv.lookup "con").getD none ∧
    rec.lab = ((rowAccOf y cm row).pv.lookup "lab").getD none ∧
    rec.lib_dem = ((rowAccOf y cm row).pv.lookup "lib_dem").getD none ∧
    rec.reform = ((rowAccOf y cm row).pv.lookup "reform").getD none ∧
    rec.green = ((rowAccOf y cm row).pv.lookup "green").getD none ∧
    rec.snp = ((rowAccOf y cm row).pv.lookup "snp").getD none ∧
    rec.other = ((rowAccOf y cm row).pv.lookup "other").getD none ∧
    rec.lead_party = (bestFold (rowAccOf y cm row).pv).1.map displayName ∧
    rec.lead_pct =
      (if pfLe ⟨0, 0⟩
          (secondFold (rowAccOf y cm row).pv (bestFold (rowAccOf y cm row).pv).1)
        then some (pyRound1 (pfSub (bestFold (rowAccOf y cm row).pv).2
          (secondFold (rowAccOf y cm row).pv (bestFold (rowAccOf y cm row).pv).1)))
        else none) := by
  unfold processRow at h
  split at h
  · cases h
  · dsimp only at h
    split at h
    · cases h
    · rename_i hcond
      push_neg at hcond
      simp only [Option.some.injEq] at h
      subst h
      exact ⟨rfl, hcond.1, by simpa using hcond.2, rfl, rfl, rfl, rfl, rfl,
        rfl, rfl, rfl, rfl, rfl⟩

/-! ### Small helpers about present party values -/

/-- A value bounded by the sentinel `-1.0` cannot be nonnegative. -/
theorem not_pfLe_neg1 {x : PyFloat} (hx : 0 ≤ x.num) :
    ¬ pfLe x ⟨-1, 0⟩ := by
  unfold pfLe
  have hp : (0 : Int) < 10 ^ x.pow := pow_pos (by norm_num) _
  simp only [pow_zero, mul_one]
  omega

/-- Nonnegative decimals dominate the zero literal. -/
theorem pfLe_zero_of_nonneg {x : PyFloat} (hx : 0 ≤ x.num) :
    pfLe ⟨0, 0⟩ x := by
  unfold pfLe
  have hp : (0 : Int) < 10 ^ x.pow := pow_pos (by norm_num) _
  simp only [pow_zero, mul_one]
  omega

/-- The sentinel is not nonnegative. -/
theorem not_pfLe_zero_neg1 : ¬ pfLe ⟨0, 0⟩ (⟨-1, 0⟩ : PyFloat) := by
  decide

/-- A failed `all isNone` test yields a present entry. -/
theorem present_of_not_all {pv : List (String × Option PyFloat)}
    (h : ¬ (pv.all (fun e => e.2.isNone) = true)) :
    ∃ k x, (k, some x) ∈ pv := by
  simp only [List.all_eq_true, not_forall] at h
  rcases h with ⟨e, he, hne⟩
  cases he2 : e.2 with
  | none => exact absurd (by rw [he2]; rfl) hne
  | some x =>
    refine ⟨e.1, x, ?_⟩
    have hpair : (e.1, some x) = e := by rw [← he2]
    rw [hpair]
    exact he

/-- A present entry contributes its value to the present-value list. -/
theorem mem_vals_of_present {pv : List (String × Option PyFloat)}
    {k : String} {x : PyFloat} (h : (k, some x) ∈ pv) :
    x ∈ pv.filterMap (fun e => e.2) :=
  List.mem_filterMap.2 ⟨(k, some x), h, rfl⟩

/-- Two present entries with different keys force at least two present
values. -/
theorem two_present_length {pv : List (String × Option PyFloat)}
    {k1 k2 : String} {x1 x2 : PyFloat} (h1 : (k1, some x1) ∈ pv)
    (h2 : (k2, some x2) ∈ pv) (hne : k1 ≠ k2) :
    2 ≤ (pv.filterMap (fun e => e.2)).length := by
  induction pv with
  | nil => simp at h1
  | cons e tl ih =>
    rcases List.mem_cons.1 h1 with hm1 | hm1
    · rcases List.mem_cons.1 h2 with hm2 | hm2
      · exact absurd (congrArg Prod.fst (hm1.trans hm2.symm)) hne
      · subst hm1
        have hv : List.filterMap (fun e => e.2) ((k1, some x1) :: tl) =
            x1 :: List.filterMap (fun e => e.2) tl := by simp
        rw [hv, List.length_cons]
        have hx2 : x2 ∈ tl.filterMap (fun e => e.2) := mem_vals_of_present hm2
        have := List.length_pos.2 (List.ne_nil_of_mem hx2)
        omega
    · rcases List.mem_cons.1 h2 with hm2 | hm2
      · subst hm2
        have hv : List.filterMap (fun e => e.2) ((k2, some x2) :: tl) =
            x2 :: List.filterMap (fun e => e.2) tl := by simp
        rw [hv, List.length_cons]
        have hx1 : x1 ∈ tl.filterMap (fun e => e.2) := mem_vals_of_present hm1
        have := List.length_pos.2 (List.ne_nil_of_mem hx1)
        omega
      · have hrec := ih hm1 hm2
        cases he2 : e.2 with
        | none =>
          have hv : List.filterMap (fun e => e.2) (e :: tl) =
              List.filterMap (fun e => e.2) tl := by simp [he2]
          rw [hv]
          exact hrec
        | some xe =>
          have hv : List.filterMap (fun e => e.2) (e :: tl) =
              xe :: List.filterMap (fun e => e.2) tl := by simp [he2]
          rw [hv, List.length_cons]
          omega

/-- Given distinct keys, a second present value yields a present entry
with a different key. -/
theorem exists_other_present {pv : List (String × Option PyFloat)}
    {k : String} {x : PyFloat} (hnd : (pv.map Prod.fst).Nodup)
    (hmem : (k, some x) ∈ pv)
    (hlen : 2 ≤ (pv.filterMap (fun e => e.2)).length) :
    ∃ k2 y, (k2, some y) ∈ pv ∧ k2 ≠ k := by
  induction pv with
  | nil => simp at hmem
  | cons e tl ih =>
    simp only [List.map_cons, List.nodup_cons] at hnd
    rcases List.mem_cons.1 hmem with hm | hm
    · subst hm
      have hv : List.filterMap (fun e => e.2) ((k, some x) :: tl) =
          x :: List.filterMap (fun e => e.2) tl := by simp
      rw [hv, List.length_cons] at hlen
      have hpos : 0 < (tl.filterMap (fun e => e.2)).length := by omega
      obtain ⟨y, hy⟩ := List.exists_mem_of_length_pos hpos
      obtain ⟨e2, he2m, he2v⟩ := List.mem_filterMap.1 hy
      refine ⟨e2.1, y, ?_, ?_⟩
      · have hpair : (e2.1, some y) = e2 := by rw [← he2v]
        rw [hpair]
        exact List.mem_cons_of_mem _ he2m
      · intro hk
        apply hnd.1
        show k ∈ List.map Prod.fst tl
        rw [← hk]
        exact List.mem_map_of_mem _ he2m
    · cases he2 : e.2 with
      | none =>
        have hv : List.filterMap (fun e => e.2) (e :: tl) =
            List.filterMap (fun e => e.2) tl := by simp [he2]
        rw [hv] at hlen
        obtain ⟨k2, y, hmt, hkne⟩ := ih hnd.2 hm hlen
        exact ⟨k2, y, List.mem_cons_of_mem _ hmt, hkne⟩
      | some xe =>
        by_cases hek : e.1 = k
        · exfalso
          apply hnd.1
          rw [hek]
          exact List.mem_map_of_mem _ hm
        · refine ⟨e.1, xe, ?_, hek⟩
          have hpair : (e.1, some xe) = e := by rw [← he2]
          rw [hpair]
          exact List.mem_cons_self _ _

/-! ### Per-record consequences of `processRow` -/

/-- Core of C2: an emitted record has a non-empty pollster and at least
one present party percentage field. -/
theorem processRow_pollster_party {cm : List (Nat × String)}
    {row : List String} {url : String} {y : Nat} {rec : PollResult}
    (h : processRow cm row url y = some rec) :
    rec.pollster ≠ "" ∧
    (rec.con.isSome ∨ rec.lab.isSome ∨ rec.lib_dem.isSome ∨
      rec.reform.isSome ∨ rec.green.isSome ∨ rec.snp.isSome ∨
      rec.other.isSome) := by
  obtain ⟨_, hpne, hall, _, hcon, hlab, hld, href, hgr, hsnp, hoth, _, _⟩ :=
    processRow_some_eq h
  refine ⟨hpne, ?_⟩
  obtain ⟨k, x, hkx⟩ := present_of_not_all hall
  have hinv := rowAccOf_pvInv y cm row
  have hk := (hinv.1 (k, some x) hkx).1
  have hlook : (rowAccOf y cm row).pv.lookup k = some (some x) :=
    lookup_of_mem_nodup hinv.2 hkx
  simp only [party_fields, List.mem_cons, List.not_mem_nil, or_false] at hk
  rcases hk with rfl | rfl | rfl | rfl | rfl | rfl | rfl
  · exact Or.inl (by rw [hcon, hlook]; rfl)
  · exact Or.inr (Or.inl (by rw [hlab, hlook]; rfl))
  · exact Or.inr (Or.inr (Or.inl (by rw [hld, hlook]; rfl)))
  · exact Or.inr (Or.inr (Or.inr (Or.inl (by rw [href, hlook]; rfl))))
  · exact Or.inr (Or.inr (Or.inr (Or.inr (Or.inl (by rw [hgr, hlook]; rfl)))))
  · exact Or.inr (Or.inr (Or.inr (Or.inr (Or.inr (Or.inl
      (by rw [hsnp, hlook]; rfl))))))
  · exact Or.inr (Or.inr (Or.inr (Or.inr (Or.inr (Or.inr
      (by rw [hoth, hlook]; rfl))))))

/-- Core characterisation of the chosen leader for an emitted record: the
party-values dict splits around a present entry whose value strictly
beats every earlier present value and dominates all present values, and
the record's leading party is that entry's display name. -/
theorem processRow_lead_first {cm : List (Nat × String)} {row : List String}
    {url : String} {y : Nat} {rec : PollResult}
    (h : processRow cm row url y = some rec) :
    ∃ l1 k x l2, (rowAccOf y cm row).pv = l1 ++ (k, some x) :: l2 ∧
      bestFold (rowAccOf y cm row).pv = (some k, x) ∧
      (∀ e ∈ l1, ∀ v, e.2 = some v → pfLt v x) ∧
      (∀ e ∈ (rowAccOf y cm row).pv, ∀ v, e.2 = some v → pfLe v x) ∧
      rec.lead_party = some (displayName k) := by
  obtain ⟨_, _, hall, _, _, _, _, _, _, _, _, hlp, _⟩ := processRow_some_eq h
  obtain ⟨k0, x0, hkx⟩ := present_of_not_all hall
  have hinv := rowAccOf_pvInv y cm row
  have hx0 := (hinv.1 (k0, some x0) hkx).2 x0 rfl
  rcases bestFold_char (rowAccOf y cm row).pv none ⟨-1, 0⟩ with
    ⟨_, hub⟩ | ⟨l1, k, x, l2, hdec, heq, _, hfirst, hub⟩
  · exact absurd (hub (k0, some x0) hkx x0 rfl) (not_pfLe_neg1 hx0)
  · have heq2 : bestFold (rowAccOf y cm row).pv = (some k, x) := heq
    refine ⟨l1, k, x, l2, hdec, heq2, hfirst, hub, ?_⟩
    rw [hlp, heq2]
    rfl

/-- Core of C10: an emitted record always carries a leading party, and a
present lead margin is nonnegative. -/
theorem processRow_lead_props {cm : List (Nat × String)} {row : List String}
    {url : String} {y : Nat} {rec : PollResult}
    (h : processRow cm row url y = some rec) :
    rec.lead_party.isSome ∧
    (∀ q, rec.lead_pct = some q → pfLe ⟨0, 0⟩ q) := by
  obtain ⟨l1, k, x, l2, _, heq, _, _, hlp⟩ := processRow_lead_first h
  obtain ⟨_, _, _, _, _, _, _, _, _, _, _, _, hlpct⟩ := processRow_some_eq h
  refine ⟨by rw [hlp]; rfl, ?_⟩
  intro q hq
  rw [hlpct] at hq
  split at hq
  · rename_i hcond
    simp only [Option.some.injEq] at hq
    subst hq
    apply pyRound1_nonneg
    apply pfSub_num_nonneg
    exact secondFold_le_bestFold_go _ _ _ _ _ (pfLe_refl _)
  · cases hq

/-- Core of C4: the lead margin of an emitted record is the rounded gap
between the maximum present value and the maximum value among the other
parties, and is missing when fewer than two party values are present. -/
theorem processRow_lead_pct_eq {cm : List (Nat × String)} {row : List String}
    {url : String} {y : Nat} {rec : PollResult}
    (h : processRow cm row url y = some rec) :
    (2 ≤ ((rowAccOf y cm row).pv.filterMap (fun e => e.2)).length →
      ∃ b m m2, rec.lead_party = some (displayName b) ∧
        m ∈ (rowAccOf y cm row).pv.filterMap (fun e => e.2) ∧
        (∀ v ∈ (rowAccOf y cm row).pv.filterMap (fun e => e.2), pfLe v m) ∧
        m2 ∈ ((rowAccOf y cm row).pv.filter
          (fun e => e.1 ≠ b)).filterMap (fun e => e.2) ∧
        (∀ v ∈ ((rowAccOf y cm row).pv.filter
          (fun e => e.1 ≠ b)).filterMap (fun e => e.2), pfLe v m2) ∧
        rec.lead_pct = some (pyRound1 (pfSub m m2))) ∧
    (((rowAccOf y cm row).pv.filterMap (fun e => e.2)).length < 2 →
      rec.lead_pct = none) := by
  obtain ⟨_, _, _, _, _, _, _, _, _, _, _, _, hlpct⟩ := processRow_some_eq h
  obtain ⟨l1, k, x, l2, hdec, heq, hfirst, hub, hlp⟩ := processRow_lead_first h
  have hinv := rowAccOf_pvInv y cm row
  have hkmem : (k, some x) ∈ (rowAccOf y cm row).pv := by
    rw [hdec]
    exact List.mem_append_right _ (List.mem_cons_self _ _)
  obtain ⟨hsmono, hsub, hsid⟩ :=
    secondFold_char (rowAccOf y cm row).pv (some k) ⟨-1, 0⟩
  have hsdef : secondFold (rowAccOf y cm row).pv (some k) =
      (rowAccOf y cm row).pv.foldl (sfStep (some k)) ⟨-1, 0⟩ := rfl
  constructor
  · intro hlen
    obtain ⟨k2, y2, hk2mem, hk2ne⟩ := exists_other_present hinv.2 hkmem hlen
    have hy2 := (hinv.1 (k2, some y2) hk2mem).2 y2 rfl
    have hy2le : pfLe y2 ((rowAccOf y cm row).pv.foldl (sfStep (some k)) ⟨-1, 0⟩) :=
      hsub (k2, some y2) hk2mem y2 rfl (by simpa using hk2ne)
    obtain ⟨k3, y3, hk3mem, hk3ne, hk3eq⟩ :
        ∃ k3 y3, (k3, some y3) ∈ (rowAccOf y cm row).pv ∧
          some k3 ≠ some k ∧
          (rowAccOf y cm row).pv.foldl (sfStep (some k)) ⟨-1, 0⟩ = y3 := by
      rcases hsid with hid | hid
      · rw [hid] at hy2le
        exact absurd hy2le (not_pfLe_neg1 hy2)
      · exact hid
    have hy3 := (hinv.1 (k3, some y3) hk3mem).2 y3 rfl
    refine ⟨k, x, (rowAccOf y cm row).pv.foldl (sfStep (some k)) ⟨-1, 0⟩,
      hlp, mem_vals_of_present hkmem, ?_, ?_, ?_, ?_⟩
    · intro v hv
      obtain ⟨e, hem, hev⟩ := List.mem_filterMap.1 hv
      exact hub e hem v hev
    · rw [hk3eq]
      apply List.mem_filterMap.2
      refine ⟨(k3, some y3), ?_, rfl⟩
      apply List.mem_filter.2
      refine ⟨hk3mem, ?_⟩
      have hne3 : k3 ≠ k := fun hc => hk3ne (by rw [hc])
      simpa using hne3
    · intro v hv
      obtain ⟨e, hem, hev⟩ := List.mem_filterMap.1 hv
      obtain ⟨hem2, hene⟩ := List.mem_filter.1 hem
      exact hsub e hem2 v hev (by simpa using hene)
    · rw [hlpct, heq]
      rw [if_pos ?hpos]
      case hpos =>
        show pfLe ⟨0, 0⟩ (secondFold (rowAccOf y cm row).pv (some k))
        rw [hsdef, hk3eq]
        exact pfLe_zero_of_nonneg hy3
      rfl
  · intro hlen2
    rw [hlpct, heq]
    rw [if_neg ?hneg]
    case hneg =>
      show ¬ pfLe ⟨0, 0⟩ (secondFold (rowAccOf y cm row).pv (some k))
      rw [hsdef]
      rcases hsid with hid | ⟨k3, y3, hk3mem, hk3ne, hk3eq⟩
      · rw [hid]
        exact not_pfLe_zero_neg1
      · exfalso
        have hne3 : k ≠ k3 := fun hc => hk3ne (by rw [hc])
        have := two_present_length hkmem hk3mem hne3
        omega

/-- Core of C5: under a sane current year every present fieldwork end
date of an emitted record lies strictly after `date.min`. -/
theorem processRow_end_date {cm : List (Nat × String)} {row : List String}
    {url : String} {y : Nat} {rec : PollResult} (hy : 2 ≤ y)
    (h : processRow cm row url y = some rec) :
    ∀ d, rec.fieldwork_end = some d → dateLt dateMin d := by
  obtain ⟨_, _, _, hend, _⟩ := processRow_some_eq h
  intro d hd
  rw [hend] at hd
  cases hfw : (rowAccOf y cm row).fwEnd with
  | none => rw [hfw] at hd; cases hd
  | some v =>
    rw [hfw] at hd
    simp only [Option.getD_some] at hd
    subst hd
    exact dateMin_lt_of_year (rowAccOf_fwEnd hy d hfw)

/-! ### The sort step -/

theorem pollLeB_trans : ∀ a b c : PollResult, pollLeB a b = true →
    pollLeB b c = true → pollLeB a c = true := by
  intro a b c h1 h2
  unfold pollLeB at *
  exact decide_eq_true (dateLe_trans (of_decide_eq_true h2) (of_decide_eq_true h1))

theorem pollLeB_total : ∀ a b : PollResult,
    (pollLeB a b || pollLeB b a) = true := by
  intro a b
  unfold pollLeB
  rcases dateLe_total (dateKey b) (dateKey a) with h | h
  · rw [decide_eq_true h]
    rfl
  · rw [decide_eq_true h]
    simp

/-- The sort output is pairwise descending in the fieldwork-end key. -/
theorem sortPolls_sorted (l : List PollResult) :
    (sortPolls l).Pairwise (fun a b => dateLe (dateKey b) (dateKey a)) := by
  unfold sortPolls
  exact (List.sorted_mergeSort pollLeB_trans pollLeB_total l).imp
    (fun hab => of_decide_eq_true hab)

/-- Sorting permutes, hence preserves membership. -/
theorem mem_sortPolls {l : List PollResult} {p : PollResult} :
    p ∈ sortPolls l ↔ p ∈ l :=
  (List.mergeSort_perm l pollLeB).mem_iff

/-! ### Unfolding a successful scrape -/

/-- Case analysis of a successful `scrape_polls` run: either one of the
degenerate guards fired (and the result is empty), or the result is the
sorted record list of the located table's data rows. -/
theorem scrape_polls_ok_cases {markup : List HTable} {url : String} {y : Nat}
    {polls : List PollResult}
    (h : scrape_polls markup url y = .ok polls) :
    polls = [] ∨
    ∃ target grid hi,
      (markup.filter (fun t => t.classes.contains "wikitable")).find?
        isTargetTable = some target ∧
      expand_rowspans target = .ok grid ∧
      ¬ grid.length < 3 ∧
      findHeaderRow grid = some hi ∧
      polls = sortPolls ((grid.drop (hi + 1)).filterMap
        (fun row => processRow (identify_columns (grid.getD hi []))
          row url y)) := by
  unfold scrape_polls at h
  dsimp only at h
  split at h
  · simp only [Except.ok.injEq] at h
    exact Or.inl h.symm
  · split at h
    · simp only [Except.ok.injEq] at h
      exact Or.inl h.symm
    · rename_i target hfind
      cases hexp : expand_rowspans target with
      | error e =>
        rw [hexp] at h
        cases h
      | ok grid =>
        rw [hexp] at h
        simp only [bind, Except.bind] at h
        split at h
        · simp only [Except.ok.injEq] at h
          exact Or.inl h.symm
        · rename_i hlen3
          split at h
          · simp only [Except.ok.injEq] at h
            exact Or.inl h.symm
          · rename_i hi hhdr
            simp only [Except.ok.injEq] at h
            exact Or.inr ⟨target, grid, hi, hfind, hexp, hlen3, hhdr, h.symm⟩

/-- Every record of a successful scrape comes from `processRow`. -/
theorem scrape_polls_ok_mem {markup : List HTable} {url : String} {y : Nat}
    {polls : List PollResult} (h : scrape_polls markup url y = .ok polls)
    {p : PollResult} (hp : p ∈ polls) :
    ∃ cm row, processRow cm row url y = some p := by
  rcases scrape_polls_ok_cases h with rfl | ⟨_, grid, hi, _, _, _, _, hpolls⟩
  · cases hp
  · rw [hpolls] at hp
    rw [mem_sortPolls] at hp
    obtain ⟨row, _, hrow⟩ := List.mem_filterMap.1 hp
    exact ⟨identify_columns (grid.getD hi []), row, hrow⟩

/-! ### First-qualifying-row property of the header scan -/

theorem find_range_first : ∀ {n : Nat} (p : Nat → Bool) {i : Nat},
    (List.range n).find? p = some i → ∀ j, j < i → ¬ p j = true := by
  intro n
  induction n with
  | zero => intro p i h; simp [List.range_zero] at h
  | succ m ih =>
    intro p i h j hj
    rw [List.range_succ_eq_map, List.find?_cons] at h
    split at h
    · simp only [Option.some.injEq] at h
      omega
    · rename_i hp0
      rw [List.find?_map] at h
      cases hfind : List.find? (p ∘ Nat.succ) (List.range m) with
      | none => rw [hfind] at h; simp at h
      | some i2 =>
        rw [hfind] at h
        simp only [Option.map_some', Option.some.injEq] at h
        cases j with
        | zero => simpa using hp0
        | succ j2 =>
          have hj2 : j2 < i2 := by omega
          exact ih (p ∘ Nat.succ) hfind j2 hj2

/-- The header detector returns the first qualifying row of the scanned
range. -/
theorem findHeaderRow_first {grid : List (List String)} {i : Nat}
    (h : findHeaderRow grid = some i) :
    i < min 4 grid.length ∧ rowQualifies (grid.getD i []) = true ∧
    ∀ j, j < i → ¬ rowQualifies (grid.getD j []) = true := by
  unfold findHeaderRow at h
  have h1 := List.find?_some h
  have h2 := List.mem_range.1 (List.mem_of_find?_eq_some h)
  have h3 := find_range_first _ h
  exact ⟨h2, h1, h3⟩

/-! ### Shape and provenance of the expanded grid -/

/-- Generic success-and-invariant preservation for `foldlM` over
`Except`. -/
theorem foldlM_ok {α γ : Type} {P : γ → Prop} {step : γ → α → Except Unit γ} :
    ∀ (l : List α),
      (∀ g a, a ∈ l → P g → ∃ g2, step g a = .ok g2 ∧ P g2) →
      ∀ g, P g → ∃ g2, l.foldlM step g = .ok g2 ∧ P g2 := by
  intro l
  induction l with
  | nil =>
    intro _ g hg
    exact ⟨g, rfl, hg⟩
  | cons a tl ih =>
    intro hstep g hg
    obtain ⟨g1, hg1, hP1⟩ := hstep g a (List.mem_cons_self _ _) hg
    obtain ⟨g2, hg2, hP2⟩ :=
      ih (fun g a ha hP => hstep g a (List.mem_cons_of_mem _ ha) hP) g1 hP1
    refine ⟨g2, ?_, hP2⟩
    rw [List.foldlM_cons, hg1]
    simpa [bind, Except.bind] using hg2

/-- One guarded write preserves the grid invariant and never raises when
the column index is nonnegative. -/
theorem writeCell_ok {t : HTable} {n m : Nat} {mc : Int}
    {g : List (List (Option String))} {r : Nat} {c : Int} {txt : String}
    (hm : mc.toNat = m) (hmc0 : 0 ≤ mc)
    (htxt : ∃ r0 ∈ t.rows, ∃ c0 ∈ r0, txt = c0.text)
    (hg : gridOk t n m g) (hc : 0 ≤ c) :
    ∃ g2, writeCell g r c mc txt = .ok g2 ∧ gridOk t n m g2 := by
  obtain ⟨hlen, hrows, hprov⟩ := hg
  unfold writeCell
  split
  · rename_i hguard
    cases hget : g.get? r with
    | none =>
      exfalso
      rw [List.get?_eq_none] at hget
      omega
    | some rowList =>
      have hmem : rowList ∈ g := List.get?_mem hget
      have hrl : rowList.length = m := hrows rowList hmem
      have hset : pySet rowList c (some txt) =
          some (rowList.set c.toNat (some txt)) := by
        unfold pySet
        rw [if_pos hc, if_pos (by omega)]
      dsimp only
      rw [hset]
      refine ⟨g.set r (rowList.set c.toNat (some txt)), rfl, ?_, ?_, ?_⟩
      · rw [List.length_set]
        exact hlen
      · intro row hrow
        rcases List.mem_or_eq_of_mem_set hrow with hmem2 | rfl
        · exact hrows row hmem2
        · rw [List.length_set]
          exact hrl
      · intro row hrow s hs
        rcases List.mem_or_eq_of_mem_set hrow with hmem2 | rfl
        · exact hprov row hmem2 s hs
        · rcases List.mem_or_eq_of_mem_set hs with hs2 | rfl
          · exact hprov rowList hmem s hs2
          · obtain ⟨r0, hr0, c0, hc0, htxteq⟩ := htxt
            exact Or.inr ⟨r0, hr0, c0, hc0, by rw [htxteq]⟩
  · exact ⟨g, rfl, hlen, hrows, hprov⟩

/-- The rectangle fill preserves the grid invariant and never raises when
started at a nonnegative column. -/
theorem fillRect_ok {t : HTable} {n m : Nat} {mc : Int}
    {g : List (List (Option String))} {rowIdx : Nat} {colIdx rs cs : Int}
    {txt : String} (hm : mc.toNat = m) (hmc0 : 0 ≤ mc)
    (htxt : ∃ r0 ∈ t.rows, ∃ c0 ∈ r0, txt = c0.text)
    (hg : gridOk t n m g) (hc : 0 ≤ colIdx) :
    ∃ g2, fillRect g rowIdx colIdx rs cs txt mc = .ok g2 ∧ gridOk t n m g2 := by
  unfold fillRect
  refine foldlM_ok _ ?_ g hg
  intro g1 dr _ hg1
  refine foldlM_ok _ ?_ g1 hg1
  intro g2 dc _ hg2
  exact writeCell_ok hm hmc0 htxt hg2 (by omega)

/-- The fuelled advance loop never raises on a row of the grid's width,
never moves the cursor backwards, and never exhausts adequate fuel. -/
theorem advanceGo_ok {row : List (Option String)} {mc : Int} {m : Nat}
    (hrow : row.length = m) (hm : mc.toNat = m) (hmc0 : 0 ≤ mc) :
    ∀ (fuel : Nat) (colIdx : Int), 0 ≤ colIdx →
      (mc - colIdx).toNat < fuel →
      ∃ c2, advanceGo row mc colIdx fuel = .ok c2 ∧ colIdx ≤ c2 ∧ 0 ≤ c2 := by
  intro fuel
  induction fuel with
  | zero =>
    intro colIdx h0 hf
    omega
  | succ f ih =>
    intro colIdx h0 hf
    rw [advanceGo]
    split
    · rename_i hlt
      cases hidx : pyIdx row colIdx with
      | none =>
        exfalso
        unfold pyIdx at hidx
        rw [if_pos h0] at hidx
        rw [List.get?_eq_none] at hidx
        omega
      | some v =>
        cases v with
        | none => exact ⟨colIdx, rfl, le_refl _, h0⟩
        | some str =>
          obtain ⟨c2, heq, hle, h02⟩ := ih (colIdx + 1) (by omega) (by omega)
          exact ⟨c2, heq, by omega, h02⟩
    · exact ⟨colIdx, rfl, le_refl _, h0⟩

/-- The cursor-advance loop never raises on a row of the grid's width and
never moves the cursor backwards. -/
theorem advanceCursor_ok {row : List (Option String)} {mc : Int} {m : Nat}
    (hrow : row.length = m) (hm : mc.toNat = m) (hmc0 : 0 ≤ mc) :
    ∀ colIdx : Int, 0 ≤ colIdx →
      ∃ c2, advanceCursor row mc colIdx = .ok c2 ∧ colIdx ≤ c2 ∧ 0 ≤ c2 := by
  intro colIdx h0
  exact advanceGo_ok hrow hm hmc0 _ colIdx h0 (by omega)

/-- The per-row cell loop preserves the grid invariant and never raises
under clean nonnegative spans. -/
theorem procCells_ok {t : HTable} {n m : Nat} {mc : Int}
    (hm : mc.toNat = m) (hmc0 : 0 ≤ mc) {rowIdx : Nat} (hrn : rowIdx < n) :
    ∀ (cells : List Cell) (g : List (List (Option String))) (colIdx : Int),
      (∀ c ∈ cells, cellSpansOk c ∧ ∃ r0 ∈ t.rows, c ∈ r0) →
      gridOk t n m g → 0 ≤ colIdx →
      ∃ g2, procCells mc rowIdx cells g colIdx = .ok g2 ∧ gridOk t n m g2 := by
  intro cells
  induction cells with
  | nil =>
    intro g colIdx _ hg _
    exact ⟨g, rfl, hg⟩
  | cons cell rest ih =>
    intro g colIdx hcells hg h0
    have hrowmem : g.getD rowIdx [] ∈ g := by
      cases hget : g.get? rowIdx with
      | none =>
        exfalso
        rw [List.get?_eq_none] at hget
        have := hg.1
        omega
      | some row =>
        have : g.getD rowIdx [] = row := by
          simp [List.getD_eq_getElem?_getD, ← List.get?_eq_getElem?, hget]
        rw [this]
        exact List.get?_mem hget
    have hrowlen : (g.getD rowIdx []).length = m := hg.2.1 _ hrowmem
    obtain ⟨c2, hadv, hc2le, hc20⟩ :=
      advanceCursor_ok hrowlen hm hmc0 colIdx h0
    obtain ⟨⟨rs, hrs, hrs0⟩, ⟨cs, hcs, hcs0⟩⟩ := (hcells cell
      (List.mem_cons_self _ _)).1
    have htxt : ∃ r0 ∈ t.rows, ∃ c0 ∈ r0, cell.text = c0.text := by
      obtain ⟨r0, hr0, hcr⟩ := (hcells cell (List.mem_cons_self _ _)).2
      exact ⟨r0, hr0, cell, hcr, rfl⟩
    rw [procCells]
    rw [hadv]
    simp only [bind, Except.bind]
    split
    · exact ⟨g, rfl, hg⟩
    · rw [hrs, hcs]
      simp only [bind, Except.bind]
      have hfill2 : ∃ g2, fillRect g rowIdx c2 rs cs cell.text mc = .ok g2 ∧
          gridOk t n m g2 := fillRect_ok hm hmc0 htxt hg hc20
      obtain ⟨g2, hfill, hg2⟩ := hfill2
      rw [hfill]
      exact ih g2 (c2 + cs)
        (fun c hc => hcells c (List.mem_cons_of_mem _ hc)) hg2 (by omega)

/-- The row loop preserves the grid invariant and never raises. -/
theorem procRows_ok {t : HTable} {n m : Nat} {mc : Int}
    (hm : mc.toNat = m) (hmc0 : 0 ≤ mc) :
    ∀ (rows2 : List (List Cell)) (idx : Nat)
      (g : List (List (Option String))),
      idx + rows2.length = n →
      (∀ r ∈ rows2, ∀ c ∈ r, cellSpansOk c ∧ ∃ r0 ∈ t.rows, c ∈ r0) →
      gridOk t n m g →
      ∃ g2, procRows mc idx rows2 g = .ok g2 ∧ gridOk t n m g2 := by
  intro rows2
  induction rows2 with
  | nil =>
    intro idx g _ _ hg
    exact ⟨g, rfl, hg⟩
  | cons r rest ih =>
    intro idx g hlen hcells hg
    have hidx : idx < n := by
      rw [List.length_cons] at hlen
      omega
    obtain ⟨g1, hp1, hg1⟩ := procCells_ok hm hmc0 hidx r g 0
      (fun c hc => hcells r (List.mem_cons_self _ _) c hc) hg (le_refl _)
    obtain ⟨g2, hp2, hg2⟩ := ih (idx + 1) g1
      (by rw [List.length_cons] at hlen; omega)
      (fun r2 hr2 => hcells r2 (List.mem_cons_of_mem _ hr2)) hg1
    refine ⟨g2, ?_, hg2⟩
    rw [procRows, hp1]
    simpa [bind, Except.bind] using hp2

/-- The first pass never raises when all colspans convert cleanly, and
yields a nonnegative width. -/
theorem computeMaxCols_ok {rows : List (List Cell)}
    (h : ∀ r ∈ rows, ∀ c ∈ r, ∃ k, spanOf c.colspan = .ok k) :
    ∃ mcv, computeMaxCols rows = .ok mcv ∧ 0 ≤ mcv := by
  unfold computeMaxCols
  refine foldlM_ok (P := fun acc : Int => 0 ≤ acc) rows ?_ 0 (le_refl _)
  intro acc r hr hacc
  have hrsum : ∃ s, rowColsSum r = .ok s := by
    unfold rowColsSum
    refine ((foldlM_ok (P := fun _ : Int => True) r ?_ 0 trivial)).imp
      (fun s hs => hs.1)
    intro acc2 c hc _
    obtain ⟨k, hk⟩ := h r hr c hc
    refine ⟨acc2 + k, ?_, trivial⟩
    rw [hk]
    rfl
  obtain ⟨s, hs⟩ := hrsum
  refine ⟨max acc s, ?_, by omega⟩
  rw [hs]
  rfl

/-- Main grid-builder guarantee under clean nonnegative spans: no
exception, a fully rectangular `row_count × max_cols` grid, and every
grid entry empty or copied from some cell of the table. -/
theorem expand_rowspans_ok {t : HTable} (h : wellSpanned t) :
    ∃ mcv grid, computeMaxCols t.rows = .ok mcv ∧ 0 ≤ mcv ∧
      expand_rowspans t = .ok grid ∧
      grid.length = t.rows.length ∧
      (∀ r ∈ grid, r.length = mcv.toNat) ∧
      (∀ r ∈ grid, ∀ s ∈ r, s = "" ∨ ∃ r0 ∈ t.rows, ∃ c0 ∈ r0, s = c0.text) := by
  by_cases hempty : t.rows.isEmpty
  · refine ⟨0, [], ?_, le_refl _, ?_, ?_, by simp, by simp⟩
    · have : t.rows = [] := List.isEmpty_iff.1 hempty
      rw [this]
      rfl
    · unfold expand_rowspans
      rw [if_pos hempty]
    · have : t.rows = [] := List.isEmpty_iff.1 hempty
      rw [this]
      rfl
  · obtain ⟨mcv, hmc, hmc0⟩ := computeMaxCols_ok
      (fun r hr c hc => ⟨((h r hr c hc).2).choose, ((h r hr c hc).2).choose_spec.1⟩)
    have hg0 : gridOk t t.rows.length mcv.toNat
        (List.replicate t.rows.length
          (List.replicate mcv.toNat (none : Option String))) := by
      refine ⟨List.length_replicate _ _, ?_, ?_⟩
      · intro row hrow
        rw [List.eq_of_mem_replicate hrow]
        exact List.length_replicate _ _
      · intro row hrow s hs
        rw [List.eq_of_mem_replicate hrow] at hs
        exact Or.inl (List.eq_of_mem_replicate hs)
    have hpr : ∃ g2, procRows mcv 0 t.rows
        (List.replicate t.rows.length
          (List.replicate mcv.toNat (none : Option String))) = .ok g2 ∧
        gridOk t t.rows.length mcv.toNat g2 :=
      procRows_ok rfl hmc0 t.rows 0
        (List.replicate t.rows.length
          (List.replicate mcv.toNat (none : Option String)))
        (by omega)
        (fun r hr c hc => ⟨h r hr c hc, r, hr, hc⟩) hg0
    obtain ⟨g2, hproc, hg2⟩ := hpr
    refine ⟨mcv, g2.map (fun r => r.map (fun c => c.getD "")), hmc, hmc0,
      ?_, ?_, ?_, ?_⟩
    · unfold expand_rowspans
      rw [if_neg hempty, hmc]
      simp only [bind, Except.bind]
      rw [hproc]
      rfl
    · rw [List.length_map]
      exact hg2.1
    · intro r hr
      obtain ⟨r0, hr0, rfl⟩ := List.mem_map.1 hr
      rw [List.length_map]
      exact hg2.2.1 r0 hr0
    · intro r hr s hs
      obtain ⟨r0, hr0, rfl⟩ := List.mem_map.1 hr
      obtain ⟨s0, hs0, rfl⟩ := List.mem_map.1 hs
      rcases hg2.2.2 r0 hr0 s0 hs0 with rfl | ⟨rr, hrr, cc, hcc, rfl⟩
      · exact Or.inl rfl
      · exact Or.inr ⟨rr, hrr, cc, hcc, rfl⟩

unseal List.merge List.mergeSort

/-- Evaluation of the full pipeline on `tieTable` (shared by several
witnesses below). -/
theorem scrape_tie : scrape_polls [tieTable] "u" 2026 = .ok [tieRec] := by
  rfl

/-- Evaluation of the row mapper on `tieTable`'s data row. -/
theorem processRow_tie :
    processRow tieColMap tieRow "u" 2026 = some tieRec := by
  rfl

/-! ### The claims -/

/-- C1: the claim states that the scrape pipeline never raises for
malformed content and degrades to an empty record list.  The code violates
this: `_expand_rowspans` converts span attributes with a bare `int(...)`,
so a located table holding a cell with a non-numeric `colspan` (here
`colspan="abc"`) raises an uncaught `ValueError` out of `scrape_polls`.
This theorem evaluates the pipeline at that failing input: the result is
the error outcome, not an empty list. -/
theorem C1_crash_eval : scrape_polls [crashTable] "u" 2026 = .error () := by
  rfl

/-- C2: every `PollResult` returned by `scrape_polls` has a non-empty
pollster string and at least one of the seven party percentage fields
present. -/
theorem C2_invariant (markup : List HTable) (url : String) (todayYear : Nat)
    (polls : List PollResult)
    (h : scrape_polls markup url todayYear = .ok polls) :
    ∀ rec ∈ polls, rec.pollster ≠ "" ∧
      (rec.con.isSome ∨ rec.lab.isSome ∨ rec.lib_dem.isSome ∨
       rec.reform.isSome ∨ rec.green.isSome ∨ rec.snp.isSome ∨
       rec.other.isSome) := by
  intro rec hrec
  obtain ⟨cm, row, hrow⟩ := scrape_polls_ok_mem h hrec
  exact processRow_pollster_party hrow

/-- Witness for C2: the invariant instantiated at a concrete scrape. -/
theorem C2_invariant_witness :
    tieRec.pollster ≠ "" ∧
      (tieRec.con.isSome ∨ tieRec.lab.isSome ∨ tieRec.lib_dem.isSome ∨
       tieRec.reform.isSome ∨ tieRec.green.isSome ∨ tieRec.snp.isSome ∨
       tieRec.other.isSome) :=
  C2_invariant [tieTable] "u" 2026 [tieRec] scrape_tie tieRec
    (List.mem_singleton.2 rfl)

/-- C10: on every emitted record the leading party is present, and a
present lead margin is nonnegative. -/
theorem C10_lead_invariants (markup : List HTable) (url : String)
    (todayYear : Nat) (polls : List PollResult)
    (h : scrape_polls markup url todayYear = .ok polls) :
    ∀ rec ∈ polls, rec.lead_party.isSome ∧
      (∀ q, rec.lead_pct = some q → pfLe ⟨0, 0⟩ q) := by
  intro rec hrec
  obtain ⟨cm, row, hrow⟩ := scrape_polls_ok_mem h hrec
  exact processRow_lead_props hrow

/-- Witness for C10 at a concrete scrape. -/
theorem C10_lead_invariants_witness :
    tieRec.lead_party.isSome ∧
      (∀ q, tieRec.lead_pct = some q → pfLe ⟨0, 0⟩ q) :=
  C10_lead_invariants [tieTable] "u" 2026 [tieRec] scrape_tie tieRec
    (List.mem_singleton.2 rfl)

/-- C5: the returned list is sorted by fieldwork end date descending,
missing end dates keyed as `date.min`; consequently (for any sane current
year) records with a missing end date appear last. -/
theorem C5_sorted (markup : List HTable) (url : String) (todayYear : Nat)
    (polls : List PollResult) (hy : 2 ≤ todayYear)
    (h : scrape_polls markup url todayYear = .ok polls) :
    polls.Pairwise (fun a b => dateLe (dateKey b) (dateKey a)) ∧
    polls.Pairwise
      (fun a b => a.fieldwork_end = none → b.fieldwork_end = none) := by
  rcases scrape_polls_ok_cases h with rfl | ⟨target, grid, hi, _, _, _, _, hpolls⟩
  · exact ⟨List.Pairwise.nil, List.Pairwise.nil⟩
  · subst hpolls
    refine ⟨sortPolls_sorted _, ?_⟩
    have hmem : ∀ p ∈ sortPolls ((grid.drop (hi + 1)).filterMap
        (fun row => processRow (identify_columns (grid.getD hi []))
          row url todayYear)),
        ∀ d, p.fieldwork_end = some d → dateLt dateMin d := by
      intro p hp d hd
      rw [mem_sortPolls] at hp
      obtain ⟨row, _, hrow⟩ := List.mem_filterMap.1 hp
      exact processRow_end_date hy hrow d hd
    refine (sortPolls_sorted _).imp_of_mem ?_
    intro a b ha hb hab hea
    cases heb : b.fieldwork_end with
    | none => rfl
    | some d =>
      exfalso
      have hlt := hmem b hb d heb
      have hkb : dateKey b = d := by simp [dateKey, heb]
      have hka : dateKey a = dateMin := by simp [dateKey, hea]
      rw [hkb, hka] at hab
      exact not_dateLe_of_lt hlt hab

/-- Witness for C5 at a concrete scrape. -/
theorem C5_sorted_witness :
    List.Pairwise (fun a b => dateLe (dateKey b) (dateKey a)) [tieRec] ∧
    List.Pairwise
      (fun a b => a.fieldwork_end = none → b.fieldwork_end = none)
      [tieRec] :=
  C5_sorted [tieTable] "u" 2026 [tieRec] (by norm_num) scrape_tie

/-- C3: refuted by the code.  The claim says an exact tie for the maximum
is broken by the canonical enumeration order {con, lab, lib_dem, reform,
green, snp, other} regardless of the order of the table's party columns.
In `tieTable` the Lab column precedes the Con column and both hold the
maximum value 30; the canonical order would elect Conservative (`con`
precedes `lab`), but the scraped record's leader is Labour, because the
code iterates the party-values dict in column order. -/
theorem C3_counterexample :
    scrape_polls [tieTable] "u" 2026 = .ok [tieRec] ∧
    tieRec.con = some ⟨30, 0⟩ ∧ tieRec.lab = some ⟨30, 0⟩ ∧
    tieRec.reform = some ⟨20, 0⟩ ∧ tieRec.green = some ⟨10, 0⟩ ∧
    tieRec.lib_dem = none ∧ tieRec.snp = none ∧ tieRec.other = none ∧
    tieRec.lead_party = some "Labour" ∧
    tieRec.lead_party ≠ some (displayName "con") :=
  ⟨scrape_tie, rfl, rfl, rfl, rfl, rfl, rfl, rfl, rfl, by decide⟩

/-- C3 (amended): on every processed data row the chosen leader is the
first party attaining the maximum in the order the party columns appear
in the table (the insertion order of the party-values dict), not the
canonical enumeration order: the dict splits as
`l1 ++ (k, some x) :: l2` with every present value of `l1` strictly
below `x` and `x` dominating all present values, and the emitted record's
lead party is `k`'s display name. -/
theorem C3_amended (cm : List (Nat × String)) (row : List String)
    (url : String) (todayYear : Nat) (rec : PollResult)
    (h : processRow cm row url todayYear = some rec) :
    ∃ l1 k x l2,
      (rowAccOf todayYear cm row).pv = l1 ++ (k, some x) :: l2 ∧
      (∀ e ∈ l1, ∀ v, e.2 = some v → pfLt v x) ∧
      (∀ e ∈ (rowAccOf todayYear cm row).pv, ∀ v, e.2 = some v → pfLe v x) ∧
      rec.lead_party = some (displayName k) := by
  obtain ⟨l1, k, x, l2, hdec, _, hf, hu, hlp⟩ := processRow_lead_first h
  exact ⟨l1, k, x, l2, hdec, hf, hu, hlp⟩

/-- Witness for the amended C3 at the concrete tied row. -/
theorem C3_amended_witness :
    ∃ l1 k x l2,
      (rowAccOf 2026 tieColMap tieRow).pv = l1 ++ (k, some x) :: l2 ∧
      (∀ e ∈ l1, ∀ v, e.2 = some v → pfLt v x) ∧
      (∀ e ∈ (rowAccOf 2026 tieColMap tieRow).pv, ∀ v, e.2 = some v → pfLe v x) ∧
      tieRec.lead_party = some (displayName k) :=
  C3_amended tieColMap tieRow "u" 2026 tieRec processRow_tie

/-- C4: for every emitted record, when at least two party values are
present the lead margin equals the maximum present value minus the
maximum among the parties other than the leader, rounded to one decimal;
with fewer than two present values the lead margin is missing. -/
theorem C4_lead_pct (cm : List (Nat × String)) (row : List String)
    (url : String) (todayYear : Nat) (rec : PollResult)
    (h : processRow cm row url todayYear = some rec) :
    (2 ≤ ((rowAccOf todayYear cm row).pv.filterMap (fun e => e.2)).length →
      ∃ b m m2, rec.lead_party = some (displayName b) ∧
        m ∈ (rowAccOf todayYear cm row).pv.filterMap (fun e => e.2) ∧
        (∀ v ∈ (rowAccOf todayYear cm row).pv.filterMap (fun e => e.2),
          pfLe v m) ∧
        m2 ∈ ((rowAccOf todayYear cm row).pv.filter
          (fun e => e.1 ≠ b)).filterMap (fun e => e.2) ∧
        (∀ v ∈ ((rowAccOf todayYear cm row).pv.filter
          (fun e => e.1 ≠ b)).filterMap (fun e => e.2), pfLe v m2) ∧
        rec.lead_pct = some (pyRound1 (pfSub m m2))) ∧
    (((rowAccOf todayYear cm row).pv.filterMap (fun e => e.2)).length < 2 →
      rec.lead_pct = none) :=
  processRow_lead_pct_eq h

/-- Witness for C4 at the concrete tied row (four present values). -/
theorem C4_lead_pct_witness :
    ∃ b m m2, tieRec.lead_party = some (displayName b) ∧
      m ∈ (rowAccOf 2026 tieColMap tieRow).pv.filterMap (fun e => e.2) ∧
      (∀ v ∈ (rowAccOf 2026 tieColMap tieRow).pv.filterMap (fun e => e.2),
        pfLe v m) ∧
      m2 ∈ ((rowAccOf 2026 tieColMap tieRow).pv.filter
        (fun e => e.1 ≠ b)).filterMap (fun e => e.2) ∧
      (∀ v ∈ ((rowAccOf 2026 tieColMap tieRow).pv.filter
        (fun e => e.1 ≠ b)).filterMap (fun e => e.2), pfLe v m2) ∧
      tieRec.lead_pct = some (pyRound1 (pfSub m m2)) :=
  (C4_lead_pct tieColMap tieRow "u" 2026 tieRec processRow_tie).1 (by decide)

/-- C7: refuted as stated.  The claim asserts that slots already filled by
an earlier row's rowspan are never overwritten and that a spanning cell's
text is duplicated into every position it covers.  In `ovTable` the cell
"A" has `rowspan="2"` starting at position (0,1), so it logically covers
(1,1); but the next row's cell "C" has `colspan="2"`, and after its
cursor starts at the unfilled slot (1,0) its rectangle sweeps over (1,1)
and overwrites "A".  The final grid holds "C" at (1,1). -/
theorem C7_counterexample :
    expand_rowspans ovTable = .ok [["X", "A"], ["C", "C"]] ∧
    spanOf (some "2") = .ok 2 ∧ ("A" : String) ≠ "C" :=
  ⟨by rfl, by rfl, by decide⟩

/-- All spans of `ovTable` convert to nonnegative integers. -/
theorem wellSpanned_ovTable : wellSpanned ovTable := by
  intro r hr c hc
  simp only [ovTable, List.mem_cons, List.not_mem_nil, or_false] at hr
  rcases hr with rfl | rfl
  · simp only [List.mem_cons, List.not_mem_nil, or_false] at hc
    rcases hc with rfl | rfl
    · exact ⟨⟨1, rfl, by norm_num⟩, ⟨1, rfl, by norm_num⟩⟩
    · exact ⟨⟨2, rfl, by norm_num⟩, ⟨1, rfl, by norm_num⟩⟩
  · simp only [List.mem_cons, List.not_mem_nil, or_false] at hc
    rcases hc with rfl
    exact ⟨⟨1, rfl, by norm_num⟩, ⟨2, rfl, by norm_num⟩⟩

/-- C7 (amended): on every table whose span attributes convert to
nonnegative integers, the grid builder raises no error (rows overflowing
`max_cols` are truncated silently) and returns a fully rectangular
`row_count × max_cols` grid in which every entry is either empty or the
text of some cell of the table; a cell's text is written to every grid
position its rectangle covers at the moment the cell is processed, but a
later cell whose colspan sweeps across an already-filled slot overwrites
it (see the counterexample), so duplication is not preserved in the final
grid. -/
theorem C7_amended (t : HTable) (h : wellSpanned t) :
    ∃ mcv grid, computeMaxCols t.rows = .ok mcv ∧ 0 ≤ mcv ∧
      expand_rowspans t = .ok grid ∧
      grid.length = t.rows.length ∧
      (∀ r ∈ grid, r.length = mcv.toNat) ∧
      (∀ r ∈ grid, ∀ s ∈ r, s = "" ∨ ∃ r0 ∈ t.rows, ∃ c0 ∈ r0, s = c0.text) :=
  expand_rowspans_ok h

/-- Witness for the amended C7 at the overwrite table. -/
theorem C7_amended_witness :
    ∃ mcv grid, computeMaxCols ovTable.rows = .ok mcv ∧ 0 ≤ mcv ∧
      expand_rowspans ovTable = .ok grid ∧
      grid.length = ovTable.rows.length ∧
      (∀ r ∈ grid, r.length = mcv.toNat) ∧
      (∀ r ∈ grid, ∀ s ∈ r,
        s = "" ∨ ∃ r0 ∈ ovTable.rows, ∃ c0 ∈ r0, s = c0.text) :=
  C7_amended ovTable wellSpanned_ovTable

/-- C8: `scrape_polls` returns the empty list (never an exception) when no
table's text contains all required party tokens, when the located table's
grid has fewer than 3 rows, and when no scanned row yields at least three
distinct recognized party fields; otherwise the header row is the first
qualifying row in scan order over rows `0 .. min(3, row_count - 1)`. -/
theorem C8_locator_header (markup : List HTable) (url : String)
    (todayYear : Nat) :
    ((∀ t ∈ markup, ¬ isTargetTable t = true) →
      scrape_polls markup url todayYear = .ok []) ∧
    (∀ target grid,
      (markup.filter (fun t => t.classes.contains "wikitable")).find?
        isTargetTable = some target →
      expand_rowspans target = .ok grid →
      (grid.length < 3 → scrape_polls markup url todayYear = .ok []) ∧
      (findHeaderRow grid = none →
        scrape_polls markup url todayYear = .ok []) ∧
      (∀ i, findHeaderRow grid = some i →
        i < min 4 grid.length ∧ rowQualifies (grid.getD i []) = true ∧
        ∀ j, j < i → ¬ rowQualifies (grid.getD j []) = true)) := by
  constructor
  · intro hno
    have hfind : (markup.filter
        (fun t => t.classes.contains "wikitable")).find? isTargetTable =
        none :=
      List.find?_eq_none.2 (fun t ht => hno t (List.mem_of_mem_filter ht))
    unfold scrape_polls
    dsimp only
    split
    · rfl
    · rw [hfind]
  · intro target grid hfind hexp
    refine ⟨?_, ?_, ?_⟩
    · intro hlen
      unfold scrape_polls
      dsimp only
      split
      · rfl
      · rw [hfind]
        dsimp only
        rw [hexp]
        simp only [bind, Except.bind]
        rw [if_pos hlen]
    · intro hhdr
      unfold scrape_polls
      dsimp only
      split
      · rfl
      · rw [hfind]
        dsimp only
        rw [hexp]
        simp only [bind, Except.bind]
        by_cases hl : grid.length < 3
        · rw [if_pos hl]
        · rw [if_neg hl, hhdr]
    · intro i hi
      exact findHeaderRow_first hi

/-- Witness for C8: a page with one table that lacks the required party
tokens scrapes to the empty list. -/
theorem C8_locator_header_witness :
    scrape_polls [(⟨[], []⟩ : HTable)] "u" 2026 = .ok [] :=
  (C8_locator_header [⟨[], []⟩] "u" 2026).1 (by decide)

/-- C9: the percentage parser strips surrounding whitespace and removes
the dash glyphs, maps empty input and the literal "N/A" to missing,
otherwise parses the first decimal-or-integer numeral substring as an
exact decimal value, and yields missing when no numeral exists; together
with the spec's concrete examples. -/
theorem C9_percentage :
    parse_percentage "26" = some ⟨26, 0⟩ ∧
    parse_percentage "19.3" = some ⟨193, 1⟩ ∧
    pfVal ⟨193, 1⟩ = 19.3 ∧
    parse_percentage "  14  " = some ⟨14, 0⟩ ∧
    parse_percentage "26%" = some ⟨26, 0⟩ ∧
    parse_percentage "—" = none ∧
    parse_percentage "" = none ∧
    parse_percentage "N/A" = none ∧
    (∀ s : String,
      ((pyStripList s.toList).filter (fun c => !isPctDash c) = [] ∨
        (pyStripList s.toList).filter (fun c => !isPctDash c) =
          ['N', '/', 'A'] →
        parse_percentage s = none) ∧
      (scanNumeral ((pyStripList s.toList).filter (fun c => !isPctDash c)) =
          none → parse_percentage s = none) ∧
      (∀ n,
        ¬((pyStripList s.toList).filter (fun c => !isPctDash c) = [] ∨
          (pyStripList s.toList).filter (fun c => !isPctDash c) =
            ['N', '/', 'A']) →
        scanNumeral ((pyStripList s.toList).filter (fun c => !isPctDash c)) =
          some n →
        parse_percentage s = some (pyFloatOfNumeral n))) := by
  refine ⟨rfl, rfl, by norm_num [pfVal], rfl, rfl, rfl, rfl, rfl, ?_⟩
  intro s
  refine ⟨?_, ?_, ?_⟩
  · intro hcase
    unfold parse_percentage
    dsimp only
    rw [if_pos hcase]
  · intro hscan
    unfold parse_percentage
    dsimp only
    by_cases hcase : (pyStripList s.toList).filter (fun c => !isPctDash c) =
        [] ∨ (pyStripList s.toList).filter (fun c => !isPctDash c) =
        ['N', '/', 'A']
    · rw [if_pos hcase]
    · rw [if_neg hcase, hscan]
  · intro n hcase hscan
    unfold parse_percentage
    dsimp only
    rw [if_neg hcase, hscan]

/-- Witness for C9's universal part at a fresh concrete input. -/
theorem C9_percentage_witness :
    parse_percentage "7.5%" = some (pyFloatOfNumeral ['7', '.', '5']) :=
  (C9_percentage.2.2.2.2.2.2.2.2 "7.5%").2.2 ['7', '.', '5'] (by decide)
    (by decide)

/-- C6: the fieldwork date-range parser splits once on the first
dash-like separator; with two parts it parses the second as the end date
under the shared year and the first as the start date under the same
year, re-deriving a month-less bare-day start from the end date's month;
with no separator it parses the whole text once and uses it for both
ends; and it meets the spec's concrete examples. -/
theorem C6_fieldwork (todayYear : Nat) :
    parse_fieldwork_dates "1-3 Feb 2026" 1999 =
      (some ⟨2026, 2, 1⟩, some ⟨2026, 2, 3⟩) ∧
    parse_fieldwork_dates "4 Feb 2026" 1999 =
      (some ⟨2026, 2, 4⟩, some ⟨2026, 2, 4⟩) ∧
    parse_fieldwork_dates "" todayYear = (none, none) ∧
    (∀ text : String, pyStripList text.toList = [] →
      parse_fieldwork_dates text todayYear = (none, none)) ∧
    (∀ (text : String) (p0 p1 : List Char),
      pyStripList text.toList ≠ [] →
      splitDashOnce (pyStripList text.toList) = some (p0, p1) →
      ((parse_fieldwork_dates text todayYear).2 =
        parse_date_text (⟨pyStripList p1⟩ : String)
          (some ((findYear (pyStripList text.toList)).getD todayYear))
          todayYear ∧
       (∀ s, parse_date_text (⟨pyStripList p0⟩ : String)
           (some ((findYear (pyStripList text.toList)).getD todayYear))
           todayYear = some s →
         (parse_fieldwork_dates text todayYear).1 = some s) ∧
       (∀ e, parse_date_text (⟨pyStripList p0⟩ : String)
           (some ((findYear (pyStripList text.toList)).getD todayYear))
           todayYear = none →
         (parse_fieldwork_dates text todayYear).2 = some e →
         (parse_fieldwork_dates text todayYear).1 =
           (match findDayNum (pyStripList p0) with
            | some dn => pyDateMk
                ((findYear (pyStripList text.toList)).getD todayYear)
                e.month dn
            | none => none)))) ∧
    (∀ text : String, pyStripList text.toList ≠ [] →
      splitDashOnce (pyStripList text.toList) = none →
      parse_fieldwork_dates text todayYear =
        (parse_date_text (⟨pyStripList text.toList⟩ : String)
          (some ((findYear (pyStripList text.toList)).getD todayYear))
          todayYear,
         parse_date_text (⟨pyStripList text.toList⟩ : String)
          (some ((findYear (pyStripList text.toList)).getD todayYear))
          todayYear)) := by
  refine ⟨by rfl, by rfl, by rfl, ?_, ?_, ?_⟩
  · intro text hstrip
    unfold parse_fieldwork_dates
    dsimp only
    rw [hstrip]
    rfl
  · intro text p0 p1 hne hsplit
    have hifneg : ¬(pyStripList text.toList).isEmpty = true := by
      simpa [List.isEmpty_iff] using hne
    refine ⟨?_, ?_, ?_⟩
    · unfold parse_fieldwork_dates
      dsimp only
      rw [if_neg hifneg, hsplit]
    · intro s hs
      unfold parse_fieldwork_dates
      dsimp only
      rw [if_neg hifneg, hsplit]
      dsimp only
      rw [hs]
    · intro e hnone hend
      unfold parse_fieldwork_dates at hend ⊢
      dsimp only at hend ⊢
      rw [if_neg hifneg, hsplit] at hend ⊢
      dsimp only at hend ⊢
      rw [hnone, hend]
  · intro text hne hsplit
    have hifneg : ¬(pyStripList text.toList).isEmpty = true := by
      simpa [List.isEmpty_iff] using hne
    unfold parse_fieldwork_dates
    dsimp only
    rw [if_neg hifneg, hsplit]

/-- Witness for C6's two-part branch at the spec's range example. -/
theorem C6_fieldwork_witness :
    (parse_fieldwork_dates "1-3 Feb 2026" 1999).2 =
      parse_date_text
        (⟨pyStripList ("3 Feb 2026".toList)⟩ : String)
        (some ((findYear (pyStripList ("1-3 Feb 2026".toList))).getD 1999))
        1999 :=
  (((C6_fieldwork 1999).2.2.2.2.1 "1-3 Feb 2026" ['1']
    ("3 Feb 2026".toList) (by decide) (by decide))).1
